import Mathlib

/-!
Verification of the e3nn point kernel convolution
(`src/e3nn/point/kernelconv.py`) against its specification.

Shallow embedding conventions:

* Tensors are total functions from (natural-number) indices to `ℚ`
  (the spec's numeric contract is stated over exact arithmetic here).
  The index order of each embedded tensor follows the comments in the
  source: `F : [batch, b, channel]`, `Y : [filter_channel, batch, a, b]`,
  `R : [batch, a, b, path]`, `norm_coef : [i, j, batch, a, b]`.
* Point/batch counts that the code obtains from tensor shapes
  (`batch, a, b = Y.shape[1:]`) are explicit parameters where a sum over
  that axis occurs (`nb` for the input-point axis, `na`, `nz` likewise).
* The external collaborators (`get_l_filters`, `set_of_l_filters`,
  `o3.clebsch_gordan`) are opaque parameters, exactly as the spec treats
  them ("consumed as pure functions/lookup tables").
* The mutable slice-accumulation loops of the source are embedded as
  sums over the loop ranges together with the source's running-offset
  arithmetic (`begin_out`, `begin_in`, `begin_R`), made explicit as
  prefix-sum functions below.
* The one place where memory layout changes a computed value — the
  `.contiguous()` of line 186, which returns an alias instead of a copy
  when the path slice of `grad_R` is already contiguous, making line 228
  add the pair's block to itself — is modelled explicitly through the
  `sliceContiguous` predicate.
-/

open Finset BigOperators

/-- Representation block: a triplet (multiplicity, order `l`, parity),
exactly the entries of the `Rs_in` / `Rs_out` lists in the source. -/
abbrev Blk := ℕ × ℕ × ℤ

/-- Dimension `mul * (2 * l + 1)` of one representation block. -/
def blkSize (x : Blk) : ℕ := x.1 * (2 * x.2.1 + 1)

namespace rs

/-- Modelled from the spec: `e3nn.rs.dim` (module `e3nn/rs.py`, not part of
the sources here) — "total dimension = Σ multiplicity×(2×order+1)". -/
def dim (Rs : List Blk) : ℕ := (Rs.map blkSize).sum

end rs

/-- Running channel offset of block `i` of a representation list: the value
of the source's `begin_out` (resp. `begin_in`) counter when the loop reaches
block `i` (lines 79-87 of `kernelconv.py`). -/
def chanOffset (Rs : List Blk) (i : ℕ) : ℕ := ((Rs.map blkSize).take i).sum

/-- Number of path entries of `R` consumed by one (output block, input block)
pair: `0` for an empty filter list (the `continue` at line 90), otherwise
`n = mul_out * mul_in * len(l_filters)` (line 94). Argument order of the
filter query follows line 89: `get_l_filters(l_in, p_in, l_out, p_out)`. -/
def pairPathLen (glf : ℕ → ℤ → ℕ → ℤ → List ℕ) (bo bi : Blk) : ℕ :=
  let lf := glf bi.2.1 bi.2.2 bo.2.1 bo.2.2
  if lf = [] then 0 else bo.1 * bi.1 * lf.length

/-- Path entries consumed by one full inner (`Rs_in`) loop for a fixed
output block `bo`. -/
def rowPathLen (glf : ℕ → ℤ → ℕ → ℤ → List ℕ) (Rs_in : List Blk) (bo : Blk) : ℕ :=
  (Rs_in.map (pairPathLen glf bo)).sum

/-- Value of the source's running `begin_R` counter when the double loop
reaches the pair (output block `i`, input block `j`): all rows before `i`
plus the part of row `i` before `j` (lines 77, 95-98). -/
def beginR (glf : ℕ → ℤ → ℕ → ℤ → List ℕ) (Rs_in Rs_out : List Blk) (i j : ℕ) : ℕ :=
  ((Rs_out.take i).map (rowPathLen glf Rs_in)).sum
  + ((Rs_in.take j).map (pairPathLen glf (Rs_out.getD i (0, 0, 0)))).sum

/-- Total size of the path axis of `R` consumed by the whole double loop. -/
def totalPathDim (glf : ℕ → ℤ → ℕ → ℤ → List ℕ) (Rs_in Rs_out : List Blk) : ℕ :=
  (Rs_out.map (rowPathLen glf Rs_in)).sum

/-- Offset of the slice of filter order `l_filter` inside the concatenated
spherical-harmonics tensor, as computed by the forward pass:
`offset = sum(2 * l + 1 for l in set_of_l_filters if l < l_filter)`
(line 104 of `kernelconv.py`). -/
def forwardYOffset (sof : List ℕ) (l_filter : ℕ) : ℕ :=
  ((sof.filter (fun l => l < l_filter)).map (fun l => 2 * l + 1)).sum

/-- Offset of the slice of filter order `l_filter` inside the concatenated
spherical-harmonics tensor, as computed by the backward pass:
`tmp = sum(2 * l + 1 for l in ctx.set_of_l_filters if l < l_filter)`
(line 204 of `kernelconv.py`). -/
def backwardYOffset (sof : List ℕ) (l_filter : ℕ) : ℕ :=
  ((sof.filter (fun l => l < l_filter)).map (fun l => 2 * l + 1)).sum

/-- Contribution of the (output block `i`, input block `j`) pair of the
forward double loop, at batch `z`, output point `a`, output multiplicity
index `u` and output m-index `im`.  This is the source's accumulated `K`
(lines 102-112): the sum over the filter list of the einsum
`"ijk,kzab,zabuv,zab,zbvj->zaui"` of the Clebsch-Gordan block `C`, the
harmonics slice `sub_Y`, the radial slice `sub_R[..., k]`, the
normalization `sub_norm_coef` and the input feature sub-block.
The flattened index of `sub_R` entry `(u, v, k)` inside the path axis is
`begin_R + (u * mul_in + v) * len(l_filters) + k` (`view` at line 95), and
the flattened channel of feature entry `(v, jm)` is
`begin_in + v * (2 * l_in + 1) + jm` (`view` at line 111).
An empty filter list gives an empty sum, i.e. the `continue` skip. -/
def pairContribK (nb : ℕ) (Cg : ℕ → ℕ → ℕ → ℕ → ℕ → ℕ → ℚ)
    (F : ℕ → ℕ → ℕ → ℚ) (Y : ℕ → ℕ → ℕ → ℕ → ℚ) (R : ℕ → ℕ → ℕ → ℕ → ℚ)
    (nc : ℕ → ℕ → ℕ → ℕ → ℕ → ℚ)
    (Rs_in Rs_out : List Blk) (glf : ℕ → ℤ → ℕ → ℤ → List ℕ) (sof : List ℕ)
    (i j z a u im : ℕ) : ℚ :=
  let bo := Rs_out.getD i (0, 0, 0)
  let bi := Rs_in.getD j (0, 0, 0)
  let lf := glf bi.2.1 bi.2.2 bo.2.1 bo.2.2
  ∑ k ∈ range lf.length, ∑ b ∈ range nb, ∑ v ∈ range bi.1,
    ∑ jm ∈ range (2 * bi.2.1 + 1), ∑ km ∈ range (2 * lf.getD k 0 + 1),
      Cg bo.2.1 bi.2.1 (lf.getD k 0) im jm km
      * Y (forwardYOffset sof (lf.getD k 0) + km) z a b
      * R z a b (beginR glf Rs_in Rs_out i j + (u * bi.1 + v) * lf.length + k)
      * nc i j z a b
      * F z b (chanOffset Rs_in j + v * (2 * bi.2.1 + 1) + jm)

/-- Forward contraction `kernel_conv_fn_forward` (lines 62-117).  The source
allocates `kernel_conv = Y.new_zeros(batch, a, n_out)` and, for each output
block `i`, adds `K.view(batch, a, -1)` into the channel slice
`[begin_out, begin_out + mul_out * (2 * l_out + 1))`; hence the value at
channel `c` is the sum, over the (unique) output block whose slice contains
`c`, of the block contributions for all input blocks `j`, with `c`
decomposed as `begin_out + u * (2 * l_out + 1) + im`.  Channels outside
every slice keep their allocated value `0`. -/
def kernel_conv_fn_forward (nb : ℕ) (Cg : ℕ → ℕ → ℕ → ℕ → ℕ → ℕ → ℚ)
    (F : ℕ → ℕ → ℕ → ℚ) (Y : ℕ → ℕ → ℕ → ℕ → ℚ) (R : ℕ → ℕ → ℕ → ℕ → ℚ)
    (nc : ℕ → ℕ → ℕ → ℕ → ℕ → ℚ)
    (Rs_in Rs_out : List Blk) (glf : ℕ → ℤ → ℕ → ℤ → List ℕ) (sof : List ℕ)
    (z a c : ℕ) : ℚ :=
  ∑ i ∈ range Rs_out.length,
    if chanOffset Rs_out i ≤ c ∧ c < chanOffset Rs_out (i + 1) then
      ∑ j ∈ range Rs_in.length,
        pairContribK nb Cg F Y R nc Rs_in Rs_out glf sof i j z a
          ((c - chanOffset Rs_out i) / (2 * (Rs_out.getD i (0, 0, 0)).2.1 + 1))
          ((c - chanOffset Rs_out i) % (2 * (Rs_out.getD i (0, 0, 0)).2.1 + 1))
    else 0

/-- Contribution of the pair (output block `i`, input block `j`) to the
feature gradient, at batch `z`, input point `b`, input multiplicity index
`v` and input m-index `jm`: the accumulated `sub_grad_F` increments of
lines 210-214, i.e. the sum over the filter loop of the einsum
`"zaui,ijk,kzab,zabuv,zab->zbvj"` of `grad_K` (the output-gradient block,
line 197), `C`, `sub_Y`, `sub_R[..., k]` and `sub_norm_coef`. -/
def grad_F_contrib (na : ℕ) (Cg : ℕ → ℕ → ℕ → ℕ → ℕ → ℕ → ℚ)
    (gk : ℕ → ℕ → ℕ → ℚ) (Y : ℕ → ℕ → ℕ → ℕ → ℚ) (R : ℕ → ℕ → ℕ → ℕ → ℚ)
    (nc : ℕ → ℕ → ℕ → ℕ → ℕ → ℚ)
    (Rs_in Rs_out : List Blk) (glf : ℕ → ℤ → ℕ → ℤ → List ℕ) (sof : List ℕ)
    (i j z b v jm : ℕ) : ℚ :=
  let bo := Rs_out.getD i (0, 0, 0)
  let bi := Rs_in.getD j (0, 0, 0)
  let lf := glf bi.2.1 bi.2.2 bo.2.1 bo.2.2
  ∑ k ∈ range lf.length, ∑ a ∈ range na, ∑ u ∈ range bo.1,
    ∑ im ∈ range (2 * bo.2.1 + 1), ∑ km ∈ range (2 * lf.getD k 0 + 1),
      gk z a (chanOffset Rs_out i + u * (2 * bo.2.1 + 1) + im)
      * Cg bo.2.1 bi.2.1 (lf.getD k 0) im jm km
      * Y (backwardYOffset sof (lf.getD k 0) + km) z a b
      * R z a b (beginR glf Rs_in Rs_out i j + (u * bi.1 + v) * lf.length + k)
      * nc i j z a b

/-- Feature gradient produced by `KernelConvFn.backward` (lines 190-193,
210-214, 225-226).  `grad_F` starts as zeros; for each pair, a copy of the
input-channel slice `s_in` is taken (`contiguous()` at line 191 copies),
incremented by the filter-loop einsums, and written back, so the final
value at channel `c` inside input block `j` is the sum over all output
blocks `i` of the pair contributions, with `c` decomposed as
`begin_in + v * (2 * l_in + 1) + jm`; channels outside every input block
slice remain `0`. -/
def KernelConvFn_backward_grad_F (na : ℕ) (Cg : ℕ → ℕ → ℕ → ℕ → ℕ → ℕ → ℚ)
    (gk : ℕ → ℕ → ℕ → ℚ) (Y : ℕ → ℕ → ℕ → ℕ → ℚ) (R : ℕ → ℕ → ℕ → ℕ → ℚ)
    (nc : ℕ → ℕ → ℕ → ℕ → ℕ → ℚ)
    (Rs_in Rs_out : List Blk) (glf : ℕ → ℤ → ℕ → ℤ → List ℕ) (sof : List ℕ)
    (z b c : ℕ) : ℚ :=
  ∑ j ∈ range Rs_in.length,
    if chanOffset Rs_in j ≤ c ∧ c < chanOffset Rs_in (j + 1) then
      ∑ i ∈ range Rs_out.length,
        grad_F_contrib na Cg gk Y R nc Rs_in Rs_out glf sof i j z b
          ((c - chanOffset Rs_in j) / (2 * (Rs_in.getD j (0, 0, 0)).2.1 + 1))
          ((c - chanOffset Rs_in j) % (2 * (Rs_in.getD j (0, 0, 0)).2.1 + 1))
    else 0

/-- Contribution of the pair (output block `i`, input block `j`) to the
spherical-harmonics gradient at filter channel `kch`, batch `z`, points
`a`, `b`: the increments `grad_Y[tmp : tmp + 2 * l_filter + 1] += ...` of
lines 215-219, i.e. for each filter order in the pair's list whose slice
contains `kch`, the einsum `"zaui,ijk,zabuv,zab,zbvj->kzab"` of `grad_K`,
`C`, `sub_R[..., k]`, `sub_norm_coef` and `sub_F`, at m-index
`kch - tmp`. -/
def grad_Y_contrib (Cg : ℕ → ℕ → ℕ → ℕ → ℕ → ℕ → ℚ)
    (gk : ℕ → ℕ → ℕ → ℚ) (F : ℕ → ℕ → ℕ → ℚ) (R : ℕ → ℕ → ℕ → ℕ → ℚ)
    (nc : ℕ → ℕ → ℕ → ℕ → ℕ → ℚ)
    (Rs_in Rs_out : List Blk) (glf : ℕ → ℤ → ℕ → ℤ → List ℕ) (sof : List ℕ)
    (i j kch z a b : ℕ) : ℚ :=
  let bo := Rs_out.getD i (0, 0, 0)
  let bi := Rs_in.getD j (0, 0, 0)
  let lf := glf bi.2.1 bi.2.2 bo.2.1 bo.2.2
  ∑ k ∈ range lf.length,
    if backwardYOffset sof (lf.getD k 0) ≤ kch ∧
        kch < backwardYOffset sof (lf.getD k 0) + (2 * lf.getD k 0 + 1) then
      ∑ u ∈ range bo.1, ∑ im ∈ range (2 * bo.2.1 + 1), ∑ v ∈ range bi.1,
        ∑ jm ∈ range (2 * bi.2.1 + 1),
          gk z a (chanOffset Rs_out i + u * (2 * bo.2.1 + 1) + im)
          * Cg bo.2.1 bi.2.1 (lf.getD k 0) im jm
              (kch - backwardYOffset sof (lf.getD k 0))
          * R z a b (beginR glf Rs_in Rs_out i j + (u * bi.1 + v) * lf.length + k)
          * nc i j z a b
          * F z b (chanOffset Rs_in j + v * (2 * bi.2.1 + 1) + jm)
    else 0

/-- Spherical-harmonics gradient produced by `KernelConvFn.backward`:
`grad_Y` starts as zeros and every pair of the double loop accumulates
(`+=`, line 216) into the slice of each of its filter orders. -/
def KernelConvFn_backward_grad_Y (Cg : ℕ → ℕ → ℕ → ℕ → ℕ → ℕ → ℚ)
    (gk : ℕ → ℕ → ℕ → ℚ) (F : ℕ → ℕ → ℕ → ℚ) (R : ℕ → ℕ → ℕ → ℕ → ℚ)
    (nc : ℕ → ℕ → ℕ → ℕ → ℕ → ℚ)
    (Rs_in Rs_out : List Blk) (glf : ℕ → ℤ → ℕ → ℤ → List ℕ) (sof : List ℕ)
    (kch z a b : ℕ) : ℚ :=
  ∑ i ∈ range Rs_out.length, ∑ j ∈ range Rs_in.length,
    grad_Y_contrib Cg gk F R nc Rs_in Rs_out glf sof i j kch z a b

/-- Block value computed by the pair (output block `i`, input block `j`)
for the radial-weight gradient at path position `begin_R + t`: the einsum
`"zaui,ijk,kzab,zab,zbvj->zabuv"` of lines 220-224 (`sub_grad_R[..., k] =`,
an overwrite of the `k`-slice of `sub_grad_R`, whose `k`-slices are
disjoint and whose initial content is the zeros of `grad_R`'s untouched
range), with `t` decomposed through the `[mul_out, mul_in, len(l_filters)]`
layout of the `view` at line 186.  How many times this block ends up
stored in `grad_R` depends on whether `sub_grad_R` aliases `grad_R` —
see `KernelConvFn_backward_grad_R`. -/
def grad_R_entry (Cg : ℕ → ℕ → ℕ → ℕ → ℕ → ℕ → ℚ)
    (gk : ℕ → ℕ → ℕ → ℚ) (F : ℕ → ℕ → ℕ → ℚ) (Y : ℕ → ℕ → ℕ → ℕ → ℚ)
    (nc : ℕ → ℕ → ℕ → ℕ → ℕ → ℚ)
    (Rs_in Rs_out : List Blk) (glf : ℕ → ℤ → ℕ → ℤ → List ℕ) (sof : List ℕ)
    (i j z a b t : ℕ) : ℚ :=
  let bo := Rs_out.getD i (0, 0, 0)
  let bi := Rs_in.getD j (0, 0, 0)
  let lf := glf bi.2.1 bi.2.2 bo.2.1 bo.2.2
  let u := t / (bi.1 * lf.length)
  let v := t % (bi.1 * lf.length) / lf.length
  let k := t % (bi.1 * lf.length) % lf.length
  ∑ im ∈ range (2 * bo.2.1 + 1), ∑ jm ∈ range (2 * bi.2.1 + 1),
    ∑ km ∈ range (2 * lf.getD k 0 + 1),
      gk z a (chanOffset Rs_out i + u * (2 * bo.2.1 + 1) + im)
      * Cg bo.2.1 bi.2.1 (lf.getD k 0) im jm km
      * Y (backwardYOffset sof (lf.getD k 0) + km) z a b
      * nc i j z a b
      * F z b (chanOffset Rs_in j + v * (2 * bi.2.1 + 1) + jm)

/-- Contiguity of the trailing-dimension slice
`grad_R[:, :, :, begin_R : begin_R + n]` taken at line 186 of the dense
zero tensor `grad_R` of sizes `[batch, a, b, P]` (strides
`[a*b*P, b*P, P, 1]`; the slice keeps the strides and has sizes
`[batch, a, b, n]`).  A tensor is contiguous when every dimension of size
greater than one carries the stride of a dense layout, so the slice is
contiguous exactly when all of `batch`, `a`, `b` equal `1`, or when
`n = P` (the pair's range spans the whole path axis).  (A slice with
`n = 0` is also contiguous, but such a pair writes nothing — for
spec-valid blocks, multiplicities are positive and the filter list of a
non-skipped pair is nonempty, so `n ≥ 1`.) -/
def sliceContiguous (batch a b n P : ℕ) : Prop :=
  (batch = 1 ∧ a = 1 ∧ b = 1) ∨ n = P

instance (batch a b n P : ℕ) : Decidable (sliceContiguous batch a b n P) := by
  unfold sliceContiguous
  infer_instance

/-- Radial-weight gradient produced by `KernelConvFn.backward`.  `grad_R`
starts as zeros (`ctx.R_shape = [batch, a, b, nP]`, line 162) and each
pair works on `sub_grad_R`, the `.contiguous().view(...)` of its path
slice (line 186), writes the einsum blocks into `sub_grad_R`'s `k`-slices
(line 221, plain assignment) and then executes
`grad_R[..., begin_R : begin_R + n] += sub_grad_R.view(batch, a, b, -1)`
(line 228).  When the slice is not contiguous, `.contiguous()` is a fresh
copy, so line 228 stores the block once.  When the slice is already
contiguous (`sliceContiguous`), `.contiguous()` returns the slice itself:
line 221 writes through the alias directly into `grad_R`, and the `+=` of
line 228 then adds the block to itself — the stored value is twice the
block.  Pairs occupy disjoint path ranges, so the value at path position
`p` comes from the single pair whose range contains `p`. -/
def KernelConvFn_backward_grad_R (nz na nb nP : ℕ)
    (Cg : ℕ → ℕ → ℕ → ℕ → ℕ → ℕ → ℚ)
    (gk : ℕ → ℕ → ℕ → ℚ) (F : ℕ → ℕ → ℕ → ℚ) (Y : ℕ → ℕ → ℕ → ℕ → ℚ)
    (nc : ℕ → ℕ → ℕ → ℕ → ℕ → ℚ)
    (Rs_in Rs_out : List Blk) (glf : ℕ → ℤ → ℕ → ℤ → List ℕ) (sof : List ℕ)
    (z a b p : ℕ) : ℚ :=
  ∑ i ∈ range Rs_out.length, ∑ j ∈ range Rs_in.length,
    if beginR glf Rs_in Rs_out i j ≤ p ∧
        p < beginR glf Rs_in Rs_out i j
            + pairPathLen glf (Rs_out.getD i (0, 0, 0)) (Rs_in.getD j (0, 0, 0)) then
      (if sliceContiguous nz na nb
          (pairPathLen glf (Rs_out.getD i (0, 0, 0)) (Rs_in.getD j (0, 0, 0))) nP
        then 2 else 1)
      * grad_R_entry Cg gk F Y nc Rs_in Rs_out glf sof i j z a b
          (p - beginR glf Rs_in Rs_out i j)
    else 0

/-- Indicator feature tensor: `1` at entry `[z0, b0, c0]`, `0` elsewhere.
Used to express partial derivatives of the (multilinear) forward
contraction exactly. -/
def deltaF (z0 b0 c0 : ℕ) : ℕ → ℕ → ℕ → ℚ :=
  fun z b c => if z = z0 ∧ b = b0 ∧ c = c0 then 1 else 0

/-- Indicator harmonics tensor: `1` at entry `[k0, z0, a0, b0]`. -/
def deltaY (k0 z0 a0 b0 : ℕ) : ℕ → ℕ → ℕ → ℕ → ℚ :=
  fun kch z a b => if kch = k0 ∧ z = z0 ∧ a = a0 ∧ b = b0 then 1 else 0

/-- Indicator radial tensor: `1` at entry `[z0, a0, b0, p0]`. -/
def deltaR (z0 a0 b0 p0 : ℕ) : ℕ → ℕ → ℕ → ℕ → ℚ :=
  fun z a b p => if z = z0 ∧ a = a0 ∧ b = b0 ∧ p = p0 then 1 else 0

/-- Gradient of `∑ gk ⊙ kernel_conv_fn_forward` with respect to the feature
entry `[z0, b0, c0]`, obtained by differentiating the forward contraction:
the forward map is linear in `F`, so the partial derivative of each output
entry is its value on the indicator tensor `deltaF z0 b0 c0`. -/
def autodiff_grad_F (nz na nb : ℕ) (Cg : ℕ → ℕ → ℕ → ℕ → ℕ → ℕ → ℚ)
    (gk : ℕ → ℕ → ℕ → ℚ) (Y : ℕ → ℕ → ℕ → ℕ → ℚ) (R : ℕ → ℕ → ℕ → ℕ → ℚ)
    (nc : ℕ → ℕ → ℕ → ℕ → ℕ → ℚ)
    (Rs_in Rs_out : List Blk) (glf : ℕ → ℤ → ℕ → ℤ → List ℕ) (sof : List ℕ)
    (z0 b0 c0 : ℕ) : ℚ :=
  ∑ z ∈ range nz, ∑ a ∈ range na, ∑ c ∈ range (rs.dim Rs_out),
    gk z a c
    * kernel_conv_fn_forward nb Cg (deltaF z0 b0 c0) Y R nc Rs_in Rs_out glf sof z a c

/-- Gradient of `∑ gk ⊙ kernel_conv_fn_forward` with respect to the
harmonics entry `[k0, z0, a0, b0]`, from linearity of the forward map
in `Y`. -/
def autodiff_grad_Y (nz na nb : ℕ) (Cg : ℕ → ℕ → ℕ → ℕ → ℕ → ℕ → ℚ)
    (gk : ℕ → ℕ → ℕ → ℚ) (F : ℕ → ℕ → ℕ → ℚ) (R : ℕ → ℕ → ℕ → ℕ → ℚ)
    (nc : ℕ → ℕ → ℕ → ℕ → ℕ → ℚ)
    (Rs_in Rs_out : List Blk) (glf : ℕ → ℤ → ℕ → ℤ → List ℕ) (sof : List ℕ)
    (k0 z0 a0 b0 : ℕ) : ℚ :=
  ∑ z ∈ range nz, ∑ a ∈ range na, ∑ c ∈ range (rs.dim Rs_out),
    gk z a c
    * kernel_conv_fn_forward nb Cg F (deltaY k0 z0 a0 b0) R nc Rs_in Rs_out glf sof z a c

/-- Gradient of `∑ gk ⊙ kernel_conv_fn_forward` with respect to the radial
entry `[z0, a0, b0, p0]`, from linearity of the forward map in `R`. -/
def autodiff_grad_R (nz na nb : ℕ) (Cg : ℕ → ℕ → ℕ → ℕ → ℕ → ℕ → ℚ)
    (gk : ℕ → ℕ → ℕ → ℚ) (F : ℕ → ℕ → ℕ → ℚ) (Y : ℕ → ℕ → ℕ → ℕ → ℚ)
    (nc : ℕ → ℕ → ℕ → ℕ → ℕ → ℚ)
    (Rs_in Rs_out : List Blk) (glf : ℕ → ℤ → ℕ → ℤ → List ℕ) (sof : List ℕ)
    (z0 a0 b0 p0 : ℕ) : ℚ :=
  ∑ z ∈ range nz, ∑ a ∈ range na, ∑ c ∈ range (rs.dim Rs_out),
    gk z a c
    * kernel_conv_fn_forward nb Cg F Y (deltaR z0 a0 b0 p0) nc Rs_in Rs_out glf sof z a c

/-- Normalization-coefficient selection of `KernelConv.forward`, line 48:
`norm_coef[:, :, (radii == 0).type(torch.long)]` — for each batch-point
pair the table entry at index `1` (when the distance is exactly zero,
`True → 1`) or `0` (otherwise) along the table's selection axis.  The
table itself (`self.norm_coef`) is built by the `Kernel` base class, which
is outside these sources; it is an opaque parameter here, with index `1`
holding the "self" value and index `0` the "other" value, as the spec's
NormalizationCoefficientTable describes. -/
def norm_coef_select (tbl : ℕ → ℕ → ℕ → ℚ) (radii : ℕ → ℕ → ℕ → ℚ)
    (i j z a b : ℕ) : ℚ :=
  tbl i j (if radii z a b = 0 then 1 else 0)

/-- Output of `KernelConv.forward` after the contraction: the kernel
convolution scaled by the mask, `kernel_conv * mask.unsqueeze(-1)`
(line 59).  `radii` is the tensor of pairwise distances (precomputed
`radii` argument or `difference_geometry.norm(2, dim=-1)`), used only
through the zero test of the coefficient selection. -/
def KernelConv_forward_out (nb : ℕ) (Cg : ℕ → ℕ → ℕ → ℕ → ℕ → ℕ → ℚ)
    (F : ℕ → ℕ → ℕ → ℚ) (Y : ℕ → ℕ → ℕ → ℕ → ℚ) (R : ℕ → ℕ → ℕ → ℕ → ℚ)
    (tbl : ℕ → ℕ → ℕ → ℚ) (radii : ℕ → ℕ → ℕ → ℚ) (mask : ℕ → ℕ → ℚ)
    (Rs_in Rs_out : List Blk) (glf : ℕ → ℤ → ℕ → ℤ → List ℕ) (sof : List ℕ)
    (z a c : ℕ) : ℚ :=
  kernel_conv_fn_forward nb Cg F Y R (norm_coef_select tbl radii)
    Rs_in Rs_out glf sof z a c * mask z a

set_option linter.unusedVariables false in
/-- Entry point `KernelConv.forward` (lines 22-59) with its precondition
check: `batch, a, b, xyz = difference_geometry.size(); assert xyz == 3`
(lines 32-33) is the only shape assertion the method performs; a failed
assertion is modelled as `none`.  `nF` models `features.shape[2]`, the
feature tensor's channel dimension: the method never compares it to
`rs.dim Rs_in`, so it does not influence the result. -/
def KernelConv_forward (nF xyz nb : ℕ) (Cg : ℕ → ℕ → ℕ → ℕ → ℕ → ℕ → ℚ)
    (F : ℕ → ℕ → ℕ → ℚ) (Y : ℕ → ℕ → ℕ → ℕ → ℚ) (R : ℕ → ℕ → ℕ → ℕ → ℚ)
    (tbl : ℕ → ℕ → ℕ → ℚ) (radii : ℕ → ℕ → ℕ → ℚ) (mask : ℕ → ℕ → ℚ)
    (Rs_in Rs_out : List Blk) (glf : ℕ → ℤ → ℕ → ℤ → List ℕ) (sof : List ℕ) :
    Option (ℕ → ℕ → ℕ → ℚ) :=
  if xyz = 3 then
    some (KernelConv_forward_out nb Cg F Y R tbl radii mask Rs_in Rs_out glf sof)
  else none

/-- Tensors retained by `KernelConvFn.forward` for the backward pass
(lines 130-144), as a function of which inputs require gradients:
`if F.requires_grad: saved_R = R; saved_Y = Y`,
`if Y.requires_grad: saved_R = R; saved_F = F`,
`if R.requires_grad: saved_Y = Y; saved_F = F`.  The decision is a pure
function of the three flags, computed before `kernel_conv_fn_forward`
runs (the `ctx.save_for_backward` call at line 144 precedes the
contraction at line 146). -/
def forward_saved (rgF rgY rgR : Bool)
    (F : ℕ → ℕ → ℕ → ℚ) (Y : ℕ → ℕ → ℕ → ℕ → ℚ) (R : ℕ → ℕ → ℕ → ℕ → ℚ) :
    Option (ℕ → ℕ → ℕ → ℚ) × Option (ℕ → ℕ → ℕ → ℕ → ℚ)
      × Option (ℕ → ℕ → ℕ → ℕ → ℚ) :=
  (if rgY || rgR then some F else none,
   if rgF || rgR then some Y else none,
   if rgF || rgY then some R else none)

/-- Shape of the output tensor allocated by the forward contraction:
`kernel_conv = Y.new_zeros(batch, a, n_out)` with `n_out = rs.dim(Rs_out)`
(lines 72-74). -/
def kernel_conv_shape (batch a : ℕ) (Rs_out : List Blk) : List ℕ :=
  [batch, a, rs.dim Rs_out]

/-- Total dimension of a representation list written the way the spec
states it, by direct recursion over the blocks: the sum of
`multiplicity * (2 * order + 1)`. -/
def totalDimSpec : List Blk → ℕ
  | [] => 0
  | x :: t => x.1 * (2 * x.2.1 + 1) + totalDimSpec t

/-- Offset rule for the harmonics slice written the way the spec states
it: the sum of the block sizes `2 * l + 1` of all filter orders `l` in
the global filter-order set that are strictly smaller than `l_filter`,
by direct recursion over the set. -/
def yOffsetSpec (sof : List ℕ) (l_filter : ℕ) : ℕ :=
  match sof with
  | [] => 0
  | l :: t => (if l < l_filter then 2 * l + 1 else 0) + yOffsetSpec t l_filter

/-! Generic facts about prefix sums of a list of block sizes, used for the
running offsets `begin_out`, `begin_in`, `begin_R` of the two engines. -/

theorem take_sum_succ (sizes : List ℕ) (i : ℕ) (h : i < sizes.length) :
    (sizes.take (i + 1)).sum = (sizes.take i).sum + sizes.getD i 0 := by
  rw [List.take_succ, List.sum_append, List.getElem?_eq_getElem h]
  simp [List.getD_eq_getElem?_getD, List.getElem?_eq_getElem h, Option.toList]

theorem take_sum_mono (sizes : List ℕ) {i j : ℕ} (h : i ≤ j) :
    (sizes.take i).sum ≤ (sizes.take j).sum := by
  have : j = i + (j - i) := by omega
  rw [this, List.take_add, List.sum_append]
  exact Nat.le_add_right _ _

theorem take_sum_le (sizes : List ℕ) (i : ℕ) :
    (sizes.take i).sum ≤ sizes.sum := by
  conv_rhs => rw [← List.take_append_drop i sizes]
  rw [List.sum_append]
  exact Nat.le_add_right _ _

theorem sum_range_blocks (sizes : List ℕ) (f : ℕ → ℚ) :
    ∑ c ∈ range sizes.sum, f c
      = ∑ i ∈ range sizes.length, ∑ t ∈ range (sizes.getD i 0),
          f ((sizes.take i).sum + t) := by
  induction sizes generalizing f with
  | nil => simp
  | cons s rest ih =>
      rw [List.sum_cons, Finset.sum_range_add, List.length_cons,
        Finset.sum_range_succ' _ rest.length]
      simp only [List.take_succ_cons, List.sum_cons, List.take_zero, List.sum_nil,
        List.getD_cons_succ, List.getD_cons_zero]
      rw [ih (fun c => f (s + c))]
      rw [add_comm (∑ c ∈ range s, f c)]
      congr 1
      · refine Finset.sum_congr rfl fun i _ => Finset.sum_congr rfl fun t _ => ?_
        congr 1
        omega
      · refine Finset.sum_congr rfl fun t _ => ?_
        congr 1
        omega

theorem block_guard_iff (sizes : List ℕ) {i0 t : ℕ} (h : i0 < sizes.length)
    (ht : t < sizes.getD i0 0) (i : ℕ) :
    ((sizes.take i).sum ≤ (sizes.take i0).sum + t ∧
      (sizes.take i0).sum + t < (sizes.take (i + 1)).sum) ↔ i = i0 := by
  constructor
  · rintro ⟨h1, h2⟩
    by_contra hne
    rcases Nat.lt_or_ge i i0 with hlt | hge
    · have : (sizes.take (i + 1)).sum ≤ (sizes.take i0).sum :=
        take_sum_mono sizes hlt
      omega
    · have hlt' : i0 < i := lt_of_le_of_ne hge (fun e => hne e.symm)
      have : (sizes.take (i0 + 1)).sum ≤ (sizes.take i).sum :=
        take_sum_mono sizes hlt'
      have := take_sum_succ sizes i0 h
      omega
  · intro he
    have hs := take_sum_succ sizes i0 h
    rw [he]
    omega

theorem sum_block_guard_collapse (sizes : List ℕ) {i0 t : ℕ}
    (h : i0 < sizes.length) (ht : t < sizes.getD i0 0) (X : ℕ → ℚ) :
    (∑ i ∈ range sizes.length,
        if (sizes.take i).sum ≤ (sizes.take i0).sum + t ∧
            (sizes.take i0).sum + t < (sizes.take (i + 1)).sum then X i else 0)
      = X i0 := by
  have : ∀ i ∈ range sizes.length,
      (if (sizes.take i).sum ≤ (sizes.take i0).sum + t ∧
          (sizes.take i0).sum + t < (sizes.take (i + 1)).sum then X i else 0)
        = if i = i0 then X i else 0 := by
    intro i _
    rw [if_congr (block_guard_iff sizes h ht i) rfl rfl]
  rw [Finset.sum_congr rfl this, Finset.sum_ite_eq' (range sizes.length) i0 X,
    if_pos (Finset.mem_range.mpr h)]

theorem block_guard_false_of_ge (sizes : List ℕ) {c : ℕ} (hc : sizes.sum ≤ c)
    (i : ℕ) : ¬((sizes.take i).sum ≤ c ∧ c < (sizes.take (i + 1)).sum) := by
  intro ⟨_, h2⟩
  have := take_sum_le sizes (i + 1)
  omega

theorem mulAdd_div {d : ℕ} (u : ℕ) {w : ℕ} (hw : w < d) : (u * d + w) / d = u := by
  rw [mul_comm, Nat.mul_add_div (by omega)]
  simp [Nat.div_eq_of_lt hw]

theorem mulAdd_mod {d : ℕ} (u : ℕ) {w : ℕ} (hw : w < d) : (u * d + w) % d = w := by
  rw [mul_comm, Nat.mul_add_mod]
  exact Nat.mod_eq_of_lt hw

theorem sum_range_mul_split (m d : ℕ) (f : ℕ → ℚ) :
    ∑ t ∈ range (m * d), f t = ∑ u ∈ range m, ∑ w ∈ range d, f (u * d + w) := by
  induction m with
  | zero => simp
  | succ m ih =>
      rw [Nat.succ_mul, Finset.sum_range_add, ih, Finset.sum_range_succ]

theorem sum_sum_ite_chan (mul d off c : ℕ) (hd : 0 < d) (X : ℕ → ℕ → ℚ) :
    (∑ v ∈ range mul, ∑ jm ∈ range d, if off + v * d + jm = c then X v jm else 0)
      = if off ≤ c ∧ c < off + mul * d then X ((c - off) / d) ((c - off) % d)
        else 0 := by
  by_cases h : off ≤ c ∧ c < off + mul * d
  · rw [if_pos h]
    have hv0 : (c - off) / d < mul := by
      rw [Nat.div_lt_iff_lt_mul hd]; omega
    have hjm0 : (c - off) % d < d := Nat.mod_lt _ hd
    have key : ∀ v < mul, ∀ jm < d,
        (off + v * d + jm = c) ↔ (v = (c - off) / d ∧ jm = (c - off) % d) := by
      intro v _ jm hjm
      constructor
      · intro he
        have : c - off = v * d + jm := by omega
        rw [this, mulAdd_div v hjm, mulAdd_mod v hjm]
        exact ⟨rfl, rfl⟩
      · rintro ⟨rfl, rfl⟩
        have h2 : (c - off) / d * d + (c - off) % d = c - off :=
          Nat.div_add_mod' (c - off) d
        omega
    calc (∑ v ∈ range mul, ∑ jm ∈ range d,
            if off + v * d + jm = c then X v jm else 0)
        = ∑ v ∈ range mul, ∑ jm ∈ range d,
            if v = (c - off) / d ∧ jm = (c - off) % d then X v jm else 0 := by
          refine Finset.sum_congr rfl fun v hv => Finset.sum_congr rfl fun jm hjm => ?_
          rw [if_congr (key v (Finset.mem_range.mp hv) jm (Finset.mem_range.mp hjm))
            rfl rfl]
      _ = X ((c - off) / d) ((c - off) % d) := by
          have inner : ∀ v,
              (∑ jm ∈ range d,
                  if v = (c - off) / d ∧ jm = (c - off) % d then X v jm else 0)
                = if v = (c - off) / d then X v ((c - off) % d) else 0 := by
            intro v
            by_cases hv : v = (c - off) / d
            · subst hv
              simp only [true_and]
              rw [Finset.sum_ite_eq' (range d) ((c - off) % d) (X _)]
              simp [Finset.mem_range, hjm0]
            · simp [hv]
          rw [Finset.sum_congr rfl fun v _ => inner v,
            Finset.sum_ite_eq' (range mul) ((c - off) / d)
              (fun v => X v ((c - off) % d))]
          simp [Finset.mem_range, hv0]
  · rw [if_neg h]
    refine Finset.sum_eq_zero fun v hv => Finset.sum_eq_zero fun jm hjm => ?_
    rw [if_neg]
    intro he
    have hv' := Finset.mem_range.mp hv
    have hjm' := Finset.mem_range.mp hjm
    have : v * d + jm < mul * d := by
      calc v * d + jm < v * d + d := by omega
        _ = (v + 1) * d := by ring
        _ ≤ mul * d := Nat.mul_le_mul_right d (by omega)
    omega

theorem sum_ite_stride (m D off p : ℕ) (hD : 0 < D) (X : ℕ → ℚ) :
    (∑ u ∈ range m, if off + u * D ≤ p ∧ p < off + u * D + D then X u else 0)
      = if off ≤ p ∧ p < off + m * D then X ((p - off) / D) else 0 := by
  by_cases h : off ≤ p ∧ p < off + m * D
  · rw [if_pos h]
    have hu0 : (p - off) / D < m := by
      rw [Nat.div_lt_iff_lt_mul hD]; omega
    have key : ∀ u < m,
        (off + u * D ≤ p ∧ p < off + u * D + D) ↔ u = (p - off) / D := by
      intro u _
      constructor
      · rintro ⟨h1, h2⟩
        have hle : u ≤ (p - off) / D := by
          rw [Nat.le_div_iff_mul_le hD]; omega
        have hlt : (p - off) / D < u + 1 := by
          rw [Nat.div_lt_iff_lt_mul hD]
          have : (u + 1) * D = u * D + D := by ring
          omega
        omega
      · rintro rfl
        have h1 : (p - off) / D * D ≤ p - off := Nat.div_mul_le_self _ _
        have h2 : (p - off) / D * D + (p - off) % D = p - off :=
          Nat.div_add_mod' _ _
        have h3 : (p - off) % D < D := Nat.mod_lt _ hD
        omega
    calc (∑ u ∈ range m, if off + u * D ≤ p ∧ p < off + u * D + D then X u else 0)
        = ∑ u ∈ range m, if u = (p - off) / D then X u else 0 := by
          refine Finset.sum_congr rfl fun u hu => ?_
          rw [if_congr (key u (Finset.mem_range.mp hu)) rfl rfl]
      _ = X ((p - off) / D) := by
          rw [Finset.sum_ite_eq' (range m) ((p - off) / D) X]
          simp [Finset.mem_range, hu0]
  · rw [if_neg h]
    refine Finset.sum_eq_zero fun u hu => ?_
    rw [if_neg]
    intro ⟨h1, h2⟩
    have hu' := Finset.mem_range.mp hu
    have : u * D + D = (u + 1) * D := by ring
    have : (u + 1) * D ≤ m * D := Nat.mul_le_mul_right D (by omega)
    omega

/-- Evaluation of `getD` through `List.map` for in-range indices. -/
theorem getD_map_blk (f : Blk → ℕ) (Rs : List Blk) {i : ℕ} (h : i < Rs.length) :
    (Rs.map f).getD i 0 = f (Rs.getD i (0, 0, 0)) := by
  rw [List.getD_eq_getElem?_getD, List.getD_eq_getElem?_getD, List.getElem?_map,
    List.getElem?_eq_getElem h]
  rfl

theorem chanOffset_succ (Rs : List Blk) {i : ℕ} (h : i < Rs.length) :
    chanOffset Rs (i + 1) = chanOffset Rs i + blkSize (Rs.getD i (0, 0, 0)) := by
  unfold chanOffset
  rw [take_sum_succ _ i (by simpa using h), getD_map_blk _ _ h]

theorem chanOffset_le_dim (Rs : List Blk) (i : ℕ) :
    chanOffset Rs i ≤ rs.dim Rs :=
  take_sum_le _ i

theorem beginR_succ_j (glf : ℕ → ℤ → ℕ → ℤ → List ℕ) (Rs_in Rs_out : List Blk)
    (i : ℕ) {j : ℕ} (hj : j < Rs_in.length) :
    beginR glf Rs_in Rs_out i (j + 1)
      = beginR glf Rs_in Rs_out i j
        + pairPathLen glf (Rs_out.getD i (0, 0, 0)) (Rs_in.getD j (0, 0, 0)) := by
  unfold beginR
  simp only [List.map_take]
  rw [take_sum_succ _ j (by simpa using hj), getD_map_blk _ _ hj]
  omega

theorem beginR_row_end (glf : ℕ → ℤ → ℕ → ℤ → List ℕ) (Rs_in Rs_out : List Blk)
    {i : ℕ} (hi : i < Rs_out.length) :
    beginR glf Rs_in Rs_out i Rs_in.length
      = beginR glf Rs_in Rs_out (i + 1) 0 := by
  unfold beginR
  simp only [List.map_take]
  rw [take_sum_succ _ i (by simpa using hi), getD_map_blk _ _ hi]
  have hlen : Rs_in.length
      = (Rs_in.map (pairPathLen glf (Rs_out.getD i (0, 0, 0)))).length :=
    (List.length_map _ _).symm
  rw [hlen, List.take_length]
  simp [rowPathLen]

theorem beginR_total_eq (glf : ℕ → ℤ → ℕ → ℤ → List ℕ) (Rs_in Rs_out : List Blk) :
    beginR glf Rs_in Rs_out Rs_out.length 0
      = totalPathDim glf Rs_in Rs_out := by
  unfold beginR totalPathDim
  simp [List.take_length]

theorem beginR_mono_j (glf : ℕ → ℤ → ℕ → ℤ → List ℕ) (Rs_in Rs_out : List Blk)
    (i : ℕ) {j j' : ℕ} (h : j ≤ j') :
    beginR glf Rs_in Rs_out i j ≤ beginR glf Rs_in Rs_out i j' := by
  unfold beginR
  have := take_sum_mono ((Rs_in.map (pairPathLen glf (Rs_out.getD i (0, 0, 0))))) h
  simp only [List.map_take]
  omega

theorem beginR_mono_i (glf : ℕ → ℤ → ℕ → ℤ → List ℕ) (Rs_in Rs_out : List Blk)
    {i i' : ℕ} (h : i ≤ i') :
    beginR glf Rs_in Rs_out i 0 ≤ beginR glf Rs_in Rs_out i' 0 := by
  unfold beginR
  have := take_sum_mono (Rs_out.map (rowPathLen glf Rs_in)) h
  simp only [List.map_take, List.take_zero, List.map_nil, List.sum_nil, add_zero]
  omega

theorem sum_ite_push {n : ℕ} (P : Prop) [Decidable P] (f : ℕ → ℚ) :
    (∑ x ∈ range n, if P then f x else 0)
      = if P then ∑ x ∈ range n, f x else 0 := by
  split <;> simp

theorem sum_ite_shift (d off c : ℕ) (X : ℕ → ℚ) :
    (∑ km ∈ range d, if off + km = c then X km else 0)
      = if off ≤ c ∧ c < off + d then X (c - off) else 0 := by
  by_cases h : off ≤ c ∧ c < off + d
  · rw [if_pos h]
    have key : ∀ km, (off + km = c) ↔ km = c - off := fun km => by omega
    calc (∑ km ∈ range d, if off + km = c then X km else 0)
        = ∑ km ∈ range d, if km = c - off then X km else 0 := by
          refine Finset.sum_congr rfl fun km _ => ?_
          rw [if_congr (key km) rfl rfl]
      _ = X (c - off) := by
          rw [Finset.sum_ite_eq' (range d) (c - off) X]
          simp only [Finset.mem_range]
          rw [if_pos (by omega)]
  · rw [if_neg h]
    refine Finset.sum_eq_zero fun km hkm => ?_
    have := Finset.mem_range.mp hkm
    rw [if_neg (by omega)]

theorem backwardYOffset_eq_forward (sof : List ℕ) (l : ℕ) :
    backwardYOffset sof l = forwardYOffset sof l := rfl

/-- A `deltaF` with a different batch index contributes nothing to the
forward pair contraction. -/
theorem pairContribK_deltaF_ne_z (nb : ℕ) (Cg : ℕ → ℕ → ℕ → ℕ → ℕ → ℕ → ℚ)
    (Y : ℕ → ℕ → ℕ → ℕ → ℚ) (R : ℕ → ℕ → ℕ → ℕ → ℚ)
    (nc : ℕ → ℕ → ℕ → ℕ → ℕ → ℚ)
    (Rs_in Rs_out : List Blk) (glf : ℕ → ℤ → ℕ → ℤ → List ℕ) (sof : List ℕ)
    (i j z0 b0 c0 z a u im : ℕ) (hzne : z ≠ z0) :
    pairContribK nb Cg (deltaF z0 b0 c0) Y R nc Rs_in Rs_out glf sof i j z a u im
      = 0 := by
  simp only [pairContribK, deltaF]
  refine Finset.sum_eq_zero fun k _ => Finset.sum_eq_zero fun b _ =>
    Finset.sum_eq_zero fun v _ => Finset.sum_eq_zero fun jm _ =>
    Finset.sum_eq_zero fun km _ => ?_
  rw [if_neg (by tauto), mul_zero]

/-- Evaluation of the forward pair contraction on an indicator feature
tensor: only the input block containing channel `c0` answers, with the
multiplicity/m decomposition of `c0`. -/
theorem pairContribK_deltaF_eval (nb : ℕ) (Cg : ℕ → ℕ → ℕ → ℕ → ℕ → ℕ → ℚ)
    (Y : ℕ → ℕ → ℕ → ℕ → ℚ) (R : ℕ → ℕ → ℕ → ℕ → ℚ)
    (nc : ℕ → ℕ → ℕ → ℕ → ℕ → ℚ)
    (Rs_in Rs_out : List Blk) (glf : ℕ → ℤ → ℕ → ℤ → List ℕ) (sof : List ℕ)
    (i j : ℕ) (hj : j < Rs_in.length) (z0 b0 c0 : ℕ) (hb : b0 < nb)
    (a u im : ℕ) :
    pairContribK nb Cg (deltaF z0 b0 c0) Y R nc Rs_in Rs_out glf sof i j z0 a u im
      = if chanOffset Rs_in j ≤ c0 ∧ c0 < chanOffset Rs_in (j + 1) then
          ∑ k ∈ range (glf (Rs_in.getD j (0, 0, 0)).2.1 (Rs_in.getD j (0, 0, 0)).2.2
              (Rs_out.getD i (0, 0, 0)).2.1 (Rs_out.getD i (0, 0, 0)).2.2).length,
            ∑ km ∈ range (2 * (glf (Rs_in.getD j (0, 0, 0)).2.1
                (Rs_in.getD j (0, 0, 0)).2.2 (Rs_out.getD i (0, 0, 0)).2.1
                (Rs_out.getD i (0, 0, 0)).2.2).getD k 0 + 1),
              Cg (Rs_out.getD i (0, 0, 0)).2.1 (Rs_in.getD j (0, 0, 0)).2.1
                  ((glf (Rs_in.getD j (0, 0, 0)).2.1 (Rs_in.getD j (0, 0, 0)).2.2
                      (Rs_out.getD i (0, 0, 0)).2.1
                      (Rs_out.getD i (0, 0, 0)).2.2).getD k 0) im
                  ((c0 - chanOffset Rs_in j)
                    % (2 * (Rs_in.getD j (0, 0, 0)).2.1 + 1)) km
              * Y (forwardYOffset sof
                    ((glf (Rs_in.getD j (0, 0, 0)).2.1 (Rs_in.getD j (0, 0, 0)).2.2
                        (Rs_out.getD i (0, 0, 0)).2.1
                        (Rs_out.getD i (0, 0, 0)).2.2).getD k 0) + km) z0 a b0
              * R z0 a b0 (beginR glf Rs_in Rs_out i j
                  + (u * (Rs_in.getD j (0, 0, 0)).1
                      + (c0 - chanOffset Rs_in j)
                        / (2 * (Rs_in.getD j (0, 0, 0)).2.1 + 1))
                    * (glf (Rs_in.getD j (0, 0, 0)).2.1 (Rs_in.getD j (0, 0, 0)).2.2
                        (Rs_out.getD i (0, 0, 0)).2.1
                        (Rs_out.getD i (0, 0, 0)).2.2).length + k)
              * nc i j z0 a b0
        else 0 := by
  simp only [pairContribK, deltaF, true_and]
  have step_b : ∀ k ∈ range (glf (Rs_in.getD j (0, 0, 0)).2.1
      (Rs_in.getD j (0, 0, 0)).2.2 (Rs_out.getD i (0, 0, 0)).2.1
      (Rs_out.getD i (0, 0, 0)).2.2).length,
      (∑ b ∈ range nb, ∑ v ∈ range (Rs_in.getD j (0, 0, 0)).1,
        ∑ jm ∈ range (2 * (Rs_in.getD j (0, 0, 0)).2.1 + 1),
        ∑ km ∈ range (2 * (glf (Rs_in.getD j (0, 0, 0)).2.1
            (Rs_in.getD j (0, 0, 0)).2.2 (Rs_out.getD i (0, 0, 0)).2.1
            (Rs_out.getD i (0, 0, 0)).2.2).getD k 0 + 1),
          Cg (Rs_out.getD i (0, 0, 0)).2.1 (Rs_in.getD j (0, 0, 0)).2.1
              ((glf (Rs_in.getD j (0, 0, 0)).2.1 (Rs_in.getD j (0, 0, 0)).2.2
                  (Rs_out.getD i (0, 0, 0)).2.1
                  (Rs_out.getD i (0, 0, 0)).2.2).getD k 0) im jm km
          * Y (forwardYOffset sof
                ((glf (Rs_in.getD j (0, 0, 0)).2.1 (Rs_in.getD j (0, 0, 0)).2.2
                    (Rs_out.getD i (0, 0, 0)).2.1
                    (Rs_out.getD i (0, 0, 0)).2.2).getD k 0) + km) z0 a b
          * R z0 a b (beginR glf Rs_in Rs_out i j
              + (u * (Rs_in.getD j (0, 0, 0)).1 + v)
                * (glf (Rs_in.getD j (0, 0, 0)).2.1 (Rs_in.getD j (0, 0, 0)).2.2
                    (Rs_out.getD i (0, 0, 0)).2.1
                    (Rs_out.getD i (0, 0, 0)).2.2).length + k)
          * nc i j z0 a b
          * (if b = b0 ∧ chanOffset Rs_in j
                + v * (2 * (Rs_in.getD j (0, 0, 0)).2.1 + 1) + jm = c0
              then (1 : ℚ) else 0))
      = if chanOffset Rs_in j ≤ c0 ∧ c0 < chanOffset Rs_in (j + 1) then
          ∑ km ∈ range (2 * (glf (Rs_in.getD j (0, 0, 0)).2.1
              (Rs_in.getD j (0, 0, 0)).2.2 (Rs_out.getD i (0, 0, 0)).2.1
              (Rs_out.getD i (0, 0, 0)).2.2).getD k 0 + 1),
            Cg (Rs_out.getD i (0, 0, 0)).2.1 (Rs_in.getD j (0, 0, 0)).2.1
                ((glf (Rs_in.getD j (0, 0, 0)).2.1 (Rs_in.getD j (0, 0, 0)).2.2
                    (Rs_out.getD i (0, 0, 0)).2.1
                    (Rs_out.getD i (0, 0, 0)).2.2).getD k 0) im
                ((c0 - chanOffset Rs_in j)
                  % (2 * (Rs_in.getD j (0, 0, 0)).2.1 + 1)) km
            * Y (forwardYOffset sof
                  ((glf (Rs_in.getD j (0, 0, 0)).2.1 (Rs_in.getD j (0, 0, 0)).2.2
                      (Rs_out.getD i (0, 0, 0)).2.1
                      (Rs_out.getD i (0, 0, 0)).2.2).getD k 0) + km) z0 a b0
            * R z0 a b0 (beginR glf Rs_in Rs_out i j
                + (u * (Rs_in.getD j (0, 0, 0)).1
                    + (c0 - chanOffset Rs_in j)
                      / (2 * (Rs_in.getD j (0, 0, 0)).2.1 + 1))
                  * (glf (Rs_in.getD j (0, 0, 0)).2.1 (Rs_in.getD j (0, 0, 0)).2.2
                      (Rs_out.getD i (0, 0, 0)).2.1
                      (Rs_out.getD i (0, 0, 0)).2.2).length + k)
            * nc i j z0 a b0
        else 0 := by
    intro k _
    rw [Finset.sum_eq_single_of_mem b0 (Finset.mem_range.mpr hb)
      (fun b _ hbne => by
        refine Finset.sum_eq_zero fun v _ => Finset.sum_eq_zero fun jm _ =>
          Finset.sum_eq_zero fun km _ => ?_
        rw [if_neg (by tauto), mul_zero])]
    simp only [eq_self_iff_true, true_and, mul_ite, mul_one, mul_zero]
    rw [Finset.sum_comm]
    calc (∑ jm ∈ range (2 * (Rs_in.getD j (0, 0, 0)).2.1 + 1),
          ∑ v ∈ range (Rs_in.getD j (0, 0, 0)).1, _) = _ := by
          refine Finset.sum_congr rfl fun jm _ => Finset.sum_congr rfl fun v _ =>
            sum_ite_push _ _
      _ = _ := by
          rw [Finset.sum_comm]
          rw [sum_sum_ite_chan (Rs_in.getD j (0, 0, 0)).1
            (2 * (Rs_in.getD j (0, 0, 0)).2.1 + 1) (chanOffset Rs_in j) c0
            (by omega)]
          rw [chanOffset_succ Rs_in hj]
          rfl
  exact (Finset.sum_congr rfl step_b).trans (sum_ite_push _ _)

theorem sum5_comm (n1 n2 n3 n4 : ℕ) (m : ℕ → ℕ) (f : ℕ → ℕ → ℕ → ℕ → ℕ → ℚ) :
    (∑ k ∈ range n4, ∑ a ∈ range n1, ∑ u ∈ range n2, ∑ im ∈ range n3,
        ∑ km ∈ range (m k), f a u im k km)
      = ∑ a ∈ range n1, ∑ u ∈ range n2, ∑ im ∈ range n3, ∑ k ∈ range n4,
          ∑ km ∈ range (m k), f a u im k km := by
  rw [Finset.sum_comm]
  refine Finset.sum_congr rfl fun a _ => ?_
  rw [Finset.sum_comm]
  refine Finset.sum_congr rfl fun u _ => ?_
  rw [Finset.sum_comm]

theorem sum_chanOffset_guard_collapse (Rs : List Blk) {i0 t : ℕ}
    (h : i0 < Rs.length) (ht : t < blkSize (Rs.getD i0 (0, 0, 0))) (X : ℕ → ℚ) :
    (∑ i ∈ range Rs.length,
        if chanOffset Rs i ≤ chanOffset Rs i0 + t ∧
            chanOffset Rs i0 + t < chanOffset Rs (i + 1) then X i else 0)
      = X i0 := by
  have key := @sum_block_guard_collapse (Rs.map blkSize) i0 t
    (by simpa using h) (by rw [getD_map_blk _ _ h]; exact ht) X
  rw [List.length_map] at key
  exact key

theorem sum_range_dim_blocks (Rs : List Blk) (f : ℕ → ℚ) :
    ∑ c ∈ range (rs.dim Rs), f c
      = ∑ i ∈ range Rs.length, ∑ t ∈ range (blkSize (Rs.getD i (0, 0, 0))),
          f (chanOffset Rs i + t) := by
  have key := sum_range_blocks (Rs.map blkSize) f
  rw [List.length_map] at key
  rw [show rs.dim Rs = (Rs.map blkSize).sum from rfl, key]
  refine Finset.sum_congr rfl fun i hi => ?_
  rw [getD_map_blk _ _ (Finset.mem_range.mp hi)]
  rfl

/-- Value of the forward contraction at a channel inside output block `i`:
the guard of block `i` is the only one that fires. -/
theorem forward_at_block (nb : ℕ) (Cg : ℕ → ℕ → ℕ → ℕ → ℕ → ℕ → ℚ)
    (F : ℕ → ℕ → ℕ → ℚ) (Y : ℕ → ℕ → ℕ → ℕ → ℚ) (R : ℕ → ℕ → ℕ → ℕ → ℚ)
    (nc : ℕ → ℕ → ℕ → ℕ → ℕ → ℚ)
    (Rs_in Rs_out : List Blk) (glf : ℕ → ℤ → ℕ → ℤ → List ℕ) (sof : List ℕ)
    (z a : ℕ) {i t : ℕ} (hi : i < Rs_out.length)
    (ht : t < blkSize (Rs_out.getD i (0, 0, 0))) :
    kernel_conv_fn_forward nb Cg F Y R nc Rs_in Rs_out glf sof z a
        (chanOffset Rs_out i + t)
      = ∑ j ∈ range Rs_in.length,
          pairContribK nb Cg F Y R nc Rs_in Rs_out glf sof i j z a
            (t / (2 * (Rs_out.getD i (0, 0, 0)).2.1 + 1))
            (t % (2 * (Rs_out.getD i (0, 0, 0)).2.1 + 1)) := by
  unfold kernel_conv_fn_forward
  rw [sum_chanOffset_guard_collapse Rs_out hi ht]
  rw [Nat.add_sub_cancel_left]

theorem mul_sum_swap (nU nIm nJ : ℕ) (g : ℕ → ℕ → ℚ) (P : ℕ → ℕ → ℕ → ℚ) :
    (∑ u ∈ range nU, ∑ im ∈ range nIm, g u im * ∑ j ∈ range nJ, P u im j)
      = ∑ j ∈ range nJ, ∑ u ∈ range nU, ∑ im ∈ range nIm, g u im * P u im j := by
  have swap2 : ∀ (m1 m2 : ℕ) (q : ℕ → ℕ → ℚ),
      (∑ x ∈ range m1, ∑ y ∈ range m2, q x y)
        = ∑ y ∈ range m2, ∑ x ∈ range m1, q x y := fun m1 m2 q => Finset.sum_comm
  calc (∑ u ∈ range nU, ∑ im ∈ range nIm, g u im * ∑ j ∈ range nJ, P u im j)
      = ∑ u ∈ range nU, ∑ im ∈ range nIm, ∑ j ∈ range nJ,
          g u im * P u im j := by
        refine Finset.sum_congr rfl fun u _ => Finset.sum_congr rfl fun im _ => ?_
        rw [Finset.mul_sum]
    _ = ∑ u ∈ range nU, ∑ j ∈ range nJ, ∑ im ∈ range nIm,
          g u im * P u im j :=
        Finset.sum_congr rfl fun u _ =>
          swap2 nIm nJ (fun im j => g u im * P u im j)
    _ = ∑ j ∈ range nJ, ∑ u ∈ range nU, ∑ im ∈ range nIm,
          g u im * P u im j :=
        swap2 nU nJ (fun u j => ∑ im ∈ range nIm, g u im * P u im j)

theorem sum4_reorder (n1 n2 n3 n4 : ℕ) (f : ℕ → ℕ → ℕ → ℕ → ℚ) :
    (∑ z ∈ range n1, ∑ a ∈ range n2, ∑ i ∈ range n3, ∑ j ∈ range n4, f z a i j)
      = ∑ i ∈ range n3, ∑ j ∈ range n4, ∑ z ∈ range n1, ∑ a ∈ range n2,
          f z a i j := by
  have swap2 : ∀ (m1 m2 : ℕ) (q : ℕ → ℕ → ℚ),
      (∑ x ∈ range m1, ∑ y ∈ range m2, q x y)
        = ∑ y ∈ range m2, ∑ x ∈ range m1, q x y := fun m1 m2 q => Finset.sum_comm
  calc (∑ z ∈ range n1, ∑ a ∈ range n2, ∑ i ∈ range n3, ∑ j ∈ range n4,
          f z a i j)
      = ∑ z ∈ range n1, ∑ i ∈ range n3, ∑ a ∈ range n2, ∑ j ∈ range n4,
          f z a i j :=
        Finset.sum_congr rfl fun z _ =>
          swap2 n2 n3 (fun a i => ∑ j ∈ range n4, f z a i j)
    _ = ∑ i ∈ range n3, ∑ z ∈ range n1, ∑ a ∈ range n2, ∑ j ∈ range n4,
          f z a i j :=
        swap2 n1 n3 (fun z i => ∑ a ∈ range n2, ∑ j ∈ range n4, f z a i j)
    _ = ∑ i ∈ range n3, ∑ z ∈ range n1, ∑ j ∈ range n4, ∑ a ∈ range n2,
          f z a i j :=
        Finset.sum_congr rfl fun i _ => Finset.sum_congr rfl fun z _ =>
          swap2 n2 n4 (fun a j => f z a i j)
    _ = ∑ i ∈ range n3, ∑ j ∈ range n4, ∑ z ∈ range n1, ∑ a ∈ range n2,
          f z a i j :=
        Finset.sum_congr rfl fun i _ =>
          swap2 n1 n4 (fun z j => ∑ a ∈ range n2, f z a i j)

/-- Adjoint identity for one pair of the double loop, feature-gradient
target: pairing the output gradient with the forward pair contraction of
an indicator feature tensor gives exactly the backward engine's pair
contribution to the feature gradient at the indicator's entry. -/
theorem pair_adjoint_F (nz na nb : ℕ) (Cg : ℕ → ℕ → ℕ → ℕ → ℕ → ℕ → ℚ)
    (gk : ℕ → ℕ → ℕ → ℚ) (Y : ℕ → ℕ → ℕ → ℕ → ℚ) (R : ℕ → ℕ → ℕ → ℕ → ℚ)
    (nc : ℕ → ℕ → ℕ → ℕ → ℕ → ℚ)
    (Rs_in Rs_out : List Blk) (glf : ℕ → ℤ → ℕ → ℤ → List ℕ) (sof : List ℕ)
    (i j : ℕ) (hj : j < Rs_in.length) (z0 b0 c0 : ℕ) (hz : z0 < nz)
    (hb : b0 < nb) :
    (∑ z ∈ range nz, ∑ a ∈ range na,
        ∑ u ∈ range (Rs_out.getD i (0, 0, 0)).1,
        ∑ im ∈ range (2 * (Rs_out.getD i (0, 0, 0)).2.1 + 1),
          gk z a (chanOffset Rs_out i
              + u * (2 * (Rs_out.getD i (0, 0, 0)).2.1 + 1) + im)
          * pairContribK nb Cg (deltaF z0 b0 c0) Y R nc Rs_in Rs_out glf sof
              i j z a u im)
      = if chanOffset Rs_in j ≤ c0 ∧ c0 < chanOffset Rs_in (j + 1) then
          grad_F_contrib na Cg gk Y R nc Rs_in Rs_out glf sof i j z0 b0
            ((c0 - chanOffset Rs_in j) / (2 * (Rs_in.getD j (0, 0, 0)).2.1 + 1))
            ((c0 - chanOffset Rs_in j) % (2 * (Rs_in.getD j (0, 0, 0)).2.1 + 1))
        else 0 := by
  rw [Finset.sum_eq_single_of_mem z0 (Finset.mem_range.mpr hz)
    (fun z _ hzne => by
      refine Finset.sum_eq_zero fun a _ => Finset.sum_eq_zero fun u _ =>
        Finset.sum_eq_zero fun im _ => ?_
      rw [pairContribK_deltaF_ne_z nb Cg Y R nc Rs_in Rs_out glf sof
        i j z0 b0 c0 z a u im hzne, mul_zero])]
  have step1 : ∀ a ∈ range na,
      (∑ u ∈ range (Rs_out.getD i (0, 0, 0)).1,
        ∑ im ∈ range (2 * (Rs_out.getD i (0, 0, 0)).2.1 + 1),
          gk z0 a (chanOffset Rs_out i
              + u * (2 * (Rs_out.getD i (0, 0, 0)).2.1 + 1) + im)
          * pairContribK nb Cg (deltaF z0 b0 c0) Y R nc Rs_in Rs_out glf sof
              i j z0 a u im)
      = if chanOffset Rs_in j ≤ c0 ∧ c0 < chanOffset Rs_in (j + 1) then
          ∑ u ∈ range (Rs_out.getD i (0, 0, 0)).1,
          ∑ im ∈ range (2 * (Rs_out.getD i (0, 0, 0)).2.1 + 1),
          ∑ k ∈ range (glf (Rs_in.getD j (0, 0, 0)).2.1
              (Rs_in.getD j (0, 0, 0)).2.2 (Rs_out.getD i (0, 0, 0)).2.1
              (Rs_out.getD i (0, 0, 0)).2.2).length,
            ∑ km ∈ range (2 * (glf (Rs_in.getD j (0, 0, 0)).2.1
                (Rs_in.getD j (0, 0, 0)).2.2 (Rs_out.getD i (0, 0, 0)).2.1
                (Rs_out.getD i (0, 0, 0)).2.2).getD k 0 + 1),
              gk z0 a (chanOffset Rs_out i
                  + u * (2 * (Rs_out.getD i (0, 0, 0)).2.1 + 1) + im)
              * (Cg (Rs_out.getD i (0, 0, 0)).2.1 (Rs_in.getD j (0, 0, 0)).2.1
                    ((glf (Rs_in.getD j (0, 0, 0)).2.1 (Rs_in.getD j (0, 0, 0)).2.2
                        (Rs_out.getD i (0, 0, 0)).2.1
                        (Rs_out.getD i (0, 0, 0)).2.2).getD k 0) im
                    ((c0 - chanOffset Rs_in j)
                      % (2 * (Rs_in.getD j (0, 0, 0)).2.1 + 1)) km
                * Y (forwardYOffset sof
                      ((glf (Rs_in.getD j (0, 0, 0)).2.1 (Rs_in.getD j (0, 0, 0)).2.2
                          (Rs_out.getD i (0, 0, 0)).2.1
                          (Rs_out.getD i (0, 0, 0)).2.2).getD k 0) + km) z0 a b0
                * R z0 a b0 (beginR glf Rs_in Rs_out i j
                    + (u * (Rs_in.getD j (0, 0, 0)).1
                        + (c0 - chanOffset Rs_in j)
                          / (2 * (Rs_in.getD j (0, 0, 0)).2.1 + 1))
                      * (glf (Rs_in.getD j (0, 0, 0)).2.1
                          (Rs_in.getD j (0, 0, 0)).2.2
                          (Rs_out.getD i (0, 0, 0)).2.1
                          (Rs_out.getD i (0, 0, 0)).2.2).length + k)
                * nc i j z0 a b0)
        else 0 := by
    intro a _
    simp only [pairContribK_deltaF_eval nb Cg Y R nc Rs_in Rs_out glf sof i j hj
      z0 b0 c0 hb, mul_ite, mul_zero, Finset.mul_sum, sum_ite_push]
  refine ((Finset.sum_congr rfl step1).trans ((sum_ite_push _ _).trans ?_))
  by_cases hg : chanOffset Rs_in j ≤ c0 ∧ c0 < chanOffset Rs_in (j + 1)
  · rw [if_pos hg, if_pos hg]
    simp only [grad_F_contrib, backwardYOffset_eq_forward]
    rw [sum5_comm]
    refine Finset.sum_congr rfl fun a _ => Finset.sum_congr rfl fun u _ =>
      Finset.sum_congr rfl fun im _ => Finset.sum_congr rfl fun k _ =>
      Finset.sum_congr rfl fun km _ => ?_
    ring
  · rw [if_neg hg, if_neg hg]

theorem sum3_rotate (nU nIm nK : ℕ) (f : ℕ → ℕ → ℕ → ℚ) :
    (∑ u ∈ range nU, ∑ im ∈ range nIm, ∑ k ∈ range nK, f u im k)
      = ∑ k ∈ range nK, ∑ u ∈ range nU, ∑ im ∈ range nIm, f u im k := by
  have swap2 : ∀ (m1 m2 : ℕ) (q : ℕ → ℕ → ℚ),
      (∑ x ∈ range m1, ∑ y ∈ range m2, q x y)
        = ∑ y ∈ range m2, ∑ x ∈ range m1, q x y := fun m1 m2 q => Finset.sum_comm
  calc (∑ u ∈ range nU, ∑ im ∈ range nIm, ∑ k ∈ range nK, f u im k)
      = ∑ u ∈ range nU, ∑ k ∈ range nK, ∑ im ∈ range nIm, f u im k :=
        Finset.sum_congr rfl fun u _ => swap2 nIm nK (fun im k => f u im k)
    _ = ∑ k ∈ range nK, ∑ u ∈ range nU, ∑ im ∈ range nIm, f u im k :=
        swap2 nU nK (fun u k => ∑ im ∈ range nIm, f u im k)

/-- A `deltaY` with a different batch or output-point index contributes
nothing to the forward pair contraction. -/
theorem pairContribK_deltaY_ne (nb : ℕ) (Cg : ℕ → ℕ → ℕ → ℕ → ℕ → ℕ → ℚ)
    (F : ℕ → ℕ → ℕ → ℚ) (R : ℕ → ℕ → ℕ → ℕ → ℚ)
    (nc : ℕ → ℕ → ℕ → ℕ → ℕ → ℚ)
    (Rs_in Rs_out : List Blk) (glf : ℕ → ℤ → ℕ → ℤ → List ℕ) (sof : List ℕ)
    (i j k0 z0 a0 b0 z a u im : ℕ) (hne : ¬(z = z0 ∧ a = a0)) :
    pairContribK nb Cg F (deltaY k0 z0 a0 b0) R nc Rs_in Rs_out glf sof
        i j z a u im = 0 := by
  simp only [pairContribK, deltaY]
  refine Finset.sum_eq_zero fun k _ => Finset.sum_eq_zero fun b _ =>
    Finset.sum_eq_zero fun v _ => Finset.sum_eq_zero fun jm _ =>
    Finset.sum_eq_zero fun km _ => ?_
  rw [if_neg (by tauto)]
  ring

/-- Evaluation of the forward pair contraction on an indicator harmonics
tensor: only the filter orders whose slice contains channel `k0` answer. -/
theorem pairContribK_deltaY_eval (nb : ℕ) (Cg : ℕ → ℕ → ℕ → ℕ → ℕ → ℕ → ℚ)
    (F : ℕ → ℕ → ℕ → ℚ) (R : ℕ → ℕ → ℕ → ℕ → ℚ)
    (nc : ℕ → ℕ → ℕ → ℕ → ℕ → ℚ)
    (Rs_in Rs_out : List Blk) (glf : ℕ → ℤ → ℕ → ℤ → List ℕ) (sof : List ℕ)
    (i j : ℕ) (k0 z0 a0 b0 : ℕ) (hb : b0 < nb) (u im : ℕ) :
    pairContribK nb Cg F (deltaY k0 z0 a0 b0) R nc Rs_in Rs_out glf sof
        i j z0 a0 u im
      = ∑ k ∈ range (glf (Rs_in.getD j (0, 0, 0)).2.1 (Rs_in.getD j (0, 0, 0)).2.2
            (Rs_out.getD i (0, 0, 0)).2.1 (Rs_out.getD i (0, 0, 0)).2.2).length,
          if forwardYOffset sof ((glf (Rs_in.getD j (0, 0, 0)).2.1
                (Rs_in.getD j (0, 0, 0)).2.2 (Rs_out.getD i (0, 0, 0)).2.1
                (Rs_out.getD i (0, 0, 0)).2.2).getD k 0) ≤ k0 ∧
              k0 < forwardYOffset sof ((glf (Rs_in.getD j (0, 0, 0)).2.1
                (Rs_in.getD j (0, 0, 0)).2.2 (Rs_out.getD i (0, 0, 0)).2.1
                (Rs_out.getD i (0, 0, 0)).2.2).getD k 0)
                + (2 * (glf (Rs_in.getD j (0, 0, 0)).2.1
                    (Rs_in.getD j (0, 0, 0)).2.2 (Rs_out.getD i (0, 0, 0)).2.1
                    (Rs_out.getD i (0, 0, 0)).2.2).getD k 0 + 1) then
            ∑ v ∈ range (Rs_in.getD j (0, 0, 0)).1,
            ∑ jm ∈ range (2 * (Rs_in.getD j (0, 0, 0)).2.1 + 1),
              Cg (Rs_out.getD i (0, 0, 0)).2.1 (Rs_in.getD j (0, 0, 0)).2.1
                  ((glf (Rs_in.getD j (0, 0, 0)).2.1 (Rs_in.getD j (0, 0, 0)).2.2
                      (Rs_out.getD i (0, 0, 0)).2.1
                      (Rs_out.getD i (0, 0, 0)).2.2).getD k 0) im jm
                  (k0 - forwardYOffset sof ((glf (Rs_in.getD j (0, 0, 0)).2.1
                      (Rs_in.getD j (0, 0, 0)).2.2 (Rs_out.getD i (0, 0, 0)).2.1
                      (Rs_out.getD i (0, 0, 0)).2.2).getD k 0))
              * R z0 a0 b0 (beginR glf Rs_in Rs_out i j
                  + (u * (Rs_in.getD j (0, 0, 0)).1 + v)
                    * (glf (Rs_in.getD j (0, 0, 0)).2.1 (Rs_in.getD j (0, 0, 0)).2.2
                        (Rs_out.getD i (0, 0, 0)).2.1
                        (Rs_out.getD i (0, 0, 0)).2.2).length + k)
              * nc i j z0 a0 b0
              * F z0 b0 (chanOffset Rs_in j
                  + v * (2 * (Rs_in.getD j (0, 0, 0)).2.1 + 1) + jm)
          else 0 := by
  simp only [pairContribK, deltaY, true_and, and_true]
  refine Finset.sum_congr rfl fun k _ => ?_
  rw [Finset.sum_eq_single_of_mem b0 (Finset.mem_range.mpr hb)
    (fun b _ hbne => by
      refine Finset.sum_eq_zero fun v _ => Finset.sum_eq_zero fun jm _ =>
        Finset.sum_eq_zero fun km _ => ?_
      rw [if_neg (by tauto)]
      ring)]
  simp only [eq_self_iff_true, and_true, mul_ite, ite_mul, mul_one, mul_zero,
    zero_mul]
  rw [Finset.sum_congr rfl fun v _ => Finset.sum_congr rfl fun jm _ =>
    sum_ite_shift _ _ _ _]
  rw [Finset.sum_congr rfl fun v _ =>
    sum_ite_push (P := forwardYOffset sof ((glf (Rs_in.getD j (0, 0, 0)).2.1
        (Rs_in.getD j (0, 0, 0)).2.2 (Rs_out.getD i (0, 0, 0)).2.1
        (Rs_out.getD i (0, 0, 0)).2.2).getD k 0) ≤ k0 ∧
      k0 < forwardYOffset sof ((glf (Rs_in.getD j (0, 0, 0)).2.1
        (Rs_in.getD j (0, 0, 0)).2.2 (Rs_out.getD i (0, 0, 0)).2.1
        (Rs_out.getD i (0, 0, 0)).2.2).getD k 0)
        + (2 * (glf (Rs_in.getD j (0, 0, 0)).2.1 (Rs_in.getD j (0, 0, 0)).2.2
            (Rs_out.getD i (0, 0, 0)).2.1
            (Rs_out.getD i (0, 0, 0)).2.2).getD k 0 + 1)) _,
    sum_ite_push]

/-- A `deltaR` with a different batch or output-point index contributes
nothing to the forward pair contraction. -/
theorem pairContribK_deltaR_ne (nb : ℕ) (Cg : ℕ → ℕ → ℕ → ℕ → ℕ → ℕ → ℚ)
    (F : ℕ → ℕ → ℕ → ℚ) (Y : ℕ → ℕ → ℕ → ℕ → ℚ)
    (nc : ℕ → ℕ → ℕ → ℕ → ℕ → ℚ)
    (Rs_in Rs_out : List Blk) (glf : ℕ → ℤ → ℕ → ℤ → List ℕ) (sof : List ℕ)
    (i j z0 a0 b0 p0 z a u im : ℕ) (hne : ¬(z = z0 ∧ a = a0)) :
    pairContribK nb Cg F Y (deltaR z0 a0 b0 p0) nc Rs_in Rs_out glf sof
        i j z a u im = 0 := by
  simp only [pairContribK, deltaR]
  refine Finset.sum_eq_zero fun k _ => Finset.sum_eq_zero fun b _ =>
    Finset.sum_eq_zero fun v _ => Finset.sum_eq_zero fun jm _ =>
    Finset.sum_eq_zero fun km _ => ?_
  rw [if_neg (by tauto)]
  ring

/-- Evaluation of the forward pair contraction on an indicator radial
tensor: only the multiplicity/filter coordinates whose path index equals
`p0` answer. -/
theorem pairContribK_deltaR_eval (nb : ℕ) (Cg : ℕ → ℕ → ℕ → ℕ → ℕ → ℕ → ℚ)
    (F : ℕ → ℕ → ℕ → ℚ) (Y : ℕ → ℕ → ℕ → ℕ → ℚ)
    (nc : ℕ → ℕ → ℕ → ℕ → ℕ → ℚ)
    (Rs_in Rs_out : List Blk) (glf : ℕ → ℤ → ℕ → ℤ → List ℕ) (sof : List ℕ)
    (i j : ℕ) (z0 a0 b0 p0 : ℕ) (hb : b0 < nb)
    (hlen : 0 < (glf (Rs_in.getD j (0, 0, 0)).2.1 (Rs_in.getD j (0, 0, 0)).2.2
        (Rs_out.getD i (0, 0, 0)).2.1 (Rs_out.getD i (0, 0, 0)).2.2).length)
    (u im : ℕ) :
    pairContribK nb Cg F Y (deltaR z0 a0 b0 p0) nc Rs_in Rs_out glf sof
        i j z0 a0 u im
      = if beginR glf Rs_in Rs_out i j
            + u * ((Rs_in.getD j (0, 0, 0)).1
              * (glf (Rs_in.getD j (0, 0, 0)).2.1 (Rs_in.getD j (0, 0, 0)).2.2
                  (Rs_out.getD i (0, 0, 0)).2.1
                  (Rs_out.getD i (0, 0, 0)).2.2).length) ≤ p0 ∧
          p0 < beginR glf Rs_in Rs_out i j
            + u * ((Rs_in.getD j (0, 0, 0)).1
              * (glf (Rs_in.getD j (0, 0, 0)).2.1 (Rs_in.getD j (0, 0, 0)).2.2
                  (Rs_out.getD i (0, 0, 0)).2.1
                  (Rs_out.getD i (0, 0, 0)).2.2).length)
            + (Rs_in.getD j (0, 0, 0)).1
              * (glf (Rs_in.getD j (0, 0, 0)).2.1 (Rs_in.getD j (0, 0, 0)).2.2
                  (Rs_out.getD i (0, 0, 0)).2.1
                  (Rs_out.getD i (0, 0, 0)).2.2).length then
          ∑ jm ∈ range (2 * (Rs_in.getD j (0, 0, 0)).2.1 + 1),
          ∑ km ∈ range (2 * (glf (Rs_in.getD j (0, 0, 0)).2.1
              (Rs_in.getD j (0, 0, 0)).2.2 (Rs_out.getD i (0, 0, 0)).2.1
              (Rs_out.getD i (0, 0, 0)).2.2).getD
                ((p0 - (beginR glf Rs_in Rs_out i j
                  + u * ((Rs_in.getD j (0, 0, 0)).1
                    * (glf (Rs_in.getD j (0, 0, 0)).2.1
                        (Rs_in.getD j (0, 0, 0)).2.2
                        (Rs_out.getD i (0, 0, 0)).2.1
                        (Rs_out.getD i (0, 0, 0)).2.2).length)))
                  % (glf (Rs_in.getD j (0, 0, 0)).2.1 (Rs_in.getD j (0, 0, 0)).2.2
                      (Rs_out.getD i (0, 0, 0)).2.1
                      (Rs_out.getD i (0, 0, 0)).2.2).length) 0 + 1),
            Cg (Rs_out.getD i (0, 0, 0)).2.1 (Rs_in.getD j (0, 0, 0)).2.1
                ((glf (Rs_in.getD j (0, 0, 0)).2.1 (Rs_in.getD j (0, 0, 0)).2.2
                    (Rs_out.getD i (0, 0, 0)).2.1
                    (Rs_out.getD i (0, 0, 0)).2.2).getD
                  ((p0 - (beginR glf Rs_in Rs_out i j
                    + u * ((Rs_in.getD j (0, 0, 0)).1
                      * (glf (Rs_in.getD j (0, 0, 0)).2.1
                          (Rs_in.getD j (0, 0, 0)).2.2
                          (Rs_out.getD i (0, 0, 0)).2.1
                          (Rs_out.getD i (0, 0, 0)).2.2).length)))
                    % (glf (Rs_in.getD j (0, 0, 0)).2.1
                        (Rs_in.getD j (0, 0, 0)).2.2
                        (Rs_out.getD i (0, 0, 0)).2.1
                        (Rs_out.getD i (0, 0, 0)).2.2).length) 0) im jm km
            * Y (forwardYOffset sof ((glf (Rs_in.getD j (0, 0, 0)).2.1
                  (Rs_in.getD j (0, 0, 0)).2.2 (Rs_out.getD i (0, 0, 0)).2.1
                  (Rs_out.getD i (0, 0, 0)).2.2).getD
                    ((p0 - (beginR glf Rs_in Rs_out i j
                      + u * ((Rs_in.getD j (0, 0, 0)).1
                        * (glf (Rs_in.getD j (0, 0, 0)).2.1
                            (Rs_in.getD j (0, 0, 0)).2.2
                            (Rs_out.getD i (0, 0, 0)).2.1
                            (Rs_out.getD i (0, 0, 0)).2.2).length)))
                      % (glf (Rs_in.getD j (0, 0, 0)).2.1
                          (Rs_in.getD j (0, 0, 0)).2.2
                          (Rs_out.getD i (0, 0, 0)).2.1
                          (Rs_out.getD i (0, 0, 0)).2.2).length) 0) + km)
                z0 a0 b0
            * nc i j z0 a0 b0
            * F z0 b0 (chanOffset Rs_in j
                + ((p0 - (beginR glf Rs_in Rs_out i j
                    + u * ((Rs_in.getD j (0, 0, 0)).1
                      * (glf (Rs_in.getD j (0, 0, 0)).2.1
                          (Rs_in.getD j (0, 0, 0)).2.2
                          (Rs_out.getD i (0, 0, 0)).2.1
                          (Rs_out.getD i (0, 0, 0)).2.2).length)))
                    / (glf (Rs_in.getD j (0, 0, 0)).2.1
                        (Rs_in.getD j (0, 0, 0)).2.2
                        (Rs_out.getD i (0, 0, 0)).2.1
                        (Rs_out.getD i (0, 0, 0)).2.2).length)
                  * (2 * (Rs_in.getD j (0, 0, 0)).2.1 + 1) + jm)
        else 0 := by
  simp only [pairContribK, deltaR, true_and]
  have step_k : ∀ k ∈ range (glf (Rs_in.getD j (0, 0, 0)).2.1
      (Rs_in.getD j (0, 0, 0)).2.2 (Rs_out.getD i (0, 0, 0)).2.1
      (Rs_out.getD i (0, 0, 0)).2.2).length,
      (∑ b ∈ range nb, ∑ v ∈ range (Rs_in.getD j (0, 0, 0)).1,
        ∑ jm ∈ range (2 * (Rs_in.getD j (0, 0, 0)).2.1 + 1),
        ∑ km ∈ range (2 * (glf (Rs_in.getD j (0, 0, 0)).2.1
            (Rs_in.getD j (0, 0, 0)).2.2 (Rs_out.getD i (0, 0, 0)).2.1
            (Rs_out.getD i (0, 0, 0)).2.2).getD k 0 + 1),
          Cg (Rs_out.getD i (0, 0, 0)).2.1 (Rs_in.getD j (0, 0, 0)).2.1
              ((glf (Rs_in.getD j (0, 0, 0)).2.1 (Rs_in.getD j (0, 0, 0)).2.2
                  (Rs_out.getD i (0, 0, 0)).2.1
                  (Rs_out.getD i (0, 0, 0)).2.2).getD k 0) im jm km
          * Y (forwardYOffset sof ((glf (Rs_in.getD j (0, 0, 0)).2.1
                (Rs_in.getD j (0, 0, 0)).2.2 (Rs_out.getD i (0, 0, 0)).2.1
                (Rs_out.getD i (0, 0, 0)).2.2).getD k 0) + km) z0 a0 b
          * (if b = b0 ∧ beginR glf Rs_in Rs_out i j
                + (u * (Rs_in.getD j (0, 0, 0)).1 + v)
                  * (glf (Rs_in.getD j (0, 0, 0)).2.1 (Rs_in.getD j (0, 0, 0)).2.2
                      (Rs_out.getD i (0, 0, 0)).2.1
                      (Rs_out.getD i (0, 0, 0)).2.2).length + k = p0
              then (1 : ℚ) else 0)
          * nc i j z0 a0 b
          * F z0 b (chanOffset Rs_in j
              + v * (2 * (Rs_in.getD j (0, 0, 0)).2.1 + 1) + jm))
      = ∑ v ∈ range (Rs_in.getD j (0, 0, 0)).1,
          if beginR glf Rs_in Rs_out i j
              + u * ((Rs_in.getD j (0, 0, 0)).1
                * (glf (Rs_in.getD j (0, 0, 0)).2.1 (Rs_in.getD j (0, 0, 0)).2.2
                    (Rs_out.getD i (0, 0, 0)).2.1
                    (Rs_out.getD i (0, 0, 0)).2.2).length)
              + v * (glf (Rs_in.getD j (0, 0, 0)).2.1 (Rs_in.getD j (0, 0, 0)).2.2
                  (Rs_out.getD i (0, 0, 0)).2.1
                  (Rs_out.getD i (0, 0, 0)).2.2).length + k = p0 then
            ∑ jm ∈ range (2 * (Rs_in.getD j (0, 0, 0)).2.1 + 1),
            ∑ km ∈ range (2 * (glf (Rs_in.getD j (0, 0, 0)).2.1
                (Rs_in.getD j (0, 0, 0)).2.2 (Rs_out.getD i (0, 0, 0)).2.1
                (Rs_out.getD i (0, 0, 0)).2.2).getD k 0 + 1),
              Cg (Rs_out.getD i (0, 0, 0)).2.1 (Rs_in.getD j (0, 0, 0)).2.1
                  ((glf (Rs_in.getD j (0, 0, 0)).2.1 (Rs_in.getD j (0, 0, 0)).2.2
                      (Rs_out.getD i (0, 0, 0)).2.1
                      (Rs_out.getD i (0, 0, 0)).2.2).getD k 0) im jm km
              * Y (forwardYOffset sof ((glf (Rs_in.getD j (0, 0, 0)).2.1
                    (Rs_in.getD j (0, 0, 0)).2.2 (Rs_out.getD i (0, 0, 0)).2.1
                    (Rs_out.getD i (0, 0, 0)).2.2).getD k 0) + km) z0 a0 b0
              * nc i j z0 a0 b0
              * F z0 b0 (chanOffset Rs_in j
                  + v * (2 * (Rs_in.getD j (0, 0, 0)).2.1 + 1) + jm)
          else 0 := by
    intro k _
    rw [Finset.sum_eq_single_of_mem b0 (Finset.mem_range.mpr hb)
      (fun b _ hbne => by
        refine Finset.sum_eq_zero fun v _ => Finset.sum_eq_zero fun jm _ =>
          Finset.sum_eq_zero fun km _ => ?_
        rw [if_neg (by tauto)]
        ring)]
    simp only [eq_self_iff_true, true_and, mul_ite, ite_mul, mul_one, mul_zero,
      zero_mul]
    refine Finset.sum_congr rfl fun v _ => ?_
    rw [show beginR glf Rs_in Rs_out i j
        + (u * (Rs_in.getD j (0, 0, 0)).1 + v)
          * (glf (Rs_in.getD j (0, 0, 0)).2.1 (Rs_in.getD j (0, 0, 0)).2.2
              (Rs_out.getD i (0, 0, 0)).2.1
              (Rs_out.getD i (0, 0, 0)).2.2).length + k
        = beginR glf Rs_in Rs_out i j
          + u * ((Rs_in.getD j (0, 0, 0)).1
            * (glf (Rs_in.getD j (0, 0, 0)).2.1 (Rs_in.getD j (0, 0, 0)).2.2
                (Rs_out.getD i (0, 0, 0)).2.1
                (Rs_out.getD i (0, 0, 0)).2.2).length)
          + v * (glf (Rs_in.getD j (0, 0, 0)).2.1 (Rs_in.getD j (0, 0, 0)).2.2
              (Rs_out.getD i (0, 0, 0)).2.1
              (Rs_out.getD i (0, 0, 0)).2.2).length + k from by ring]
    rw [Finset.sum_congr rfl fun jm _ =>
      sum_ite_push (P := beginR glf Rs_in Rs_out i j
        + u * ((Rs_in.getD j (0, 0, 0)).1
          * (glf (Rs_in.getD j (0, 0, 0)).2.1 (Rs_in.getD j (0, 0, 0)).2.2
              (Rs_out.getD i (0, 0, 0)).2.1
              (Rs_out.getD i (0, 0, 0)).2.2).length)
        + v * (glf (Rs_in.getD j (0, 0, 0)).2.1 (Rs_in.getD j (0, 0, 0)).2.2
            (Rs_out.getD i (0, 0, 0)).2.1
            (Rs_out.getD i (0, 0, 0)).2.2).length + k = p0) _,
      sum_ite_push]
  rw [Finset.sum_congr rfl step_k, Finset.sum_comm,
    sum_sum_ite_chan (Rs_in.getD j (0, 0, 0)).1
      ((glf (Rs_in.getD j (0, 0, 0)).2.1 (Rs_in.getD j (0, 0, 0)).2.2
          (Rs_out.getD i (0, 0, 0)).2.1
          (Rs_out.getD i (0, 0, 0)).2.2).length)
      (beginR glf Rs_in Rs_out i j
        + u * ((Rs_in.getD j (0, 0, 0)).1
          * (glf (Rs_in.getD j (0, 0, 0)).2.1 (Rs_in.getD j (0, 0, 0)).2.2
              (Rs_out.getD i (0, 0, 0)).2.1
              (Rs_out.getD i (0, 0, 0)).2.2).length))
      p0 hlen]

/-- Adjoint identity for one pair of the double loop, radial-gradient
target: pairing the output gradient with the forward pair contraction of
an indicator radial tensor gives exactly the backward engine's entry of
the radial gradient at the indicator's path position. -/
theorem pair_adjoint_R (nz na nb : ℕ) (Cg : ℕ → ℕ → ℕ → ℕ → ℕ → ℕ → ℚ)
    (gk : ℕ → ℕ → ℕ → ℚ) (F : ℕ → ℕ → ℕ → ℚ) (Y : ℕ → ℕ → ℕ → ℕ → ℚ)
    (nc : ℕ → ℕ → ℕ → ℕ → ℕ → ℚ)
    (Rs_in Rs_out : List Blk) (glf : ℕ → ℤ → ℕ → ℤ → List ℕ) (sof : List ℕ)
    (i j : ℕ) (z0 a0 b0 p0 : ℕ) (hz : z0 < nz) (ha : a0 < na) (hb : b0 < nb) :
    (∑ z ∈ range nz, ∑ a ∈ range na,
        ∑ u ∈ range (Rs_out.getD i (0, 0, 0)).1,
        ∑ im ∈ range (2 * (Rs_out.getD i (0, 0, 0)).2.1 + 1),
          gk z a (chanOffset Rs_out i
              + u * (2 * (Rs_out.getD i (0, 0, 0)).2.1 + 1) + im)
          * pairContribK nb Cg F Y (deltaR z0 a0 b0 p0) nc Rs_in Rs_out glf sof
              i j z a u im)
      = if beginR glf Rs_in Rs_out i j ≤ p0 ∧
            p0 < beginR glf Rs_in Rs_out i j
              + pairPathLen glf (Rs_out.getD i (0, 0, 0))
                (Rs_in.getD j (0, 0, 0)) then
          grad_R_entry Cg gk F Y nc Rs_in Rs_out glf sof i j z0 a0 b0
            (p0 - beginR glf Rs_in Rs_out i j)
        else 0 := by
  rw [Finset.sum_eq_single_of_mem z0 (Finset.mem_range.mpr hz)
    (fun z _ hzne => by
      refine Finset.sum_eq_zero fun a _ => Finset.sum_eq_zero fun u _ =>
        Finset.sum_eq_zero fun im _ => ?_
      rw [pairContribK_deltaR_ne nb Cg F Y nc Rs_in Rs_out glf sof
        i j z0 a0 b0 p0 z a u im (by tauto), mul_zero])]
  rw [Finset.sum_eq_single_of_mem a0 (Finset.mem_range.mpr ha)
    (fun a _ hane => by
      refine Finset.sum_eq_zero fun u _ => Finset.sum_eq_zero fun im _ => ?_
      rw [pairContribK_deltaR_ne nb Cg F Y nc Rs_in Rs_out glf sof
        i j z0 a0 b0 p0 z0 a u im (by tauto), mul_zero])]
  by_cases hemp : glf (Rs_in.getD j (0, 0, 0)).2.1 (Rs_in.getD j (0, 0, 0)).2.2
      (Rs_out.getD i (0, 0, 0)).2.1 (Rs_out.getD i (0, 0, 0)).2.2 = []
  · have hpl : pairPathLen glf (Rs_out.getD i (0, 0, 0))
        (Rs_in.getD j (0, 0, 0)) = 0 := by
      simp only [pairPathLen]
      rw [if_pos hemp]
    rw [hpl, if_neg (by omega)]
    refine Finset.sum_eq_zero fun u _ => Finset.sum_eq_zero fun im _ => ?_
    simp only [pairContribK]
    rw [hemp]
    simp
  · have hlen : 0 < (glf (Rs_in.getD j (0, 0, 0)).2.1 (Rs_in.getD j (0, 0, 0)).2.2
        (Rs_out.getD i (0, 0, 0)).2.1
        (Rs_out.getD i (0, 0, 0)).2.2).length := List.length_pos.mpr hemp
    have hpl : pairPathLen glf (Rs_out.getD i (0, 0, 0)) (Rs_in.getD j (0, 0, 0))
        = (Rs_out.getD i (0, 0, 0)).1 * (Rs_in.getD j (0, 0, 0)).1
          * (glf (Rs_in.getD j (0, 0, 0)).2.1 (Rs_in.getD j (0, 0, 0)).2.2
              (Rs_out.getD i (0, 0, 0)).2.1
              (Rs_out.getD i (0, 0, 0)).2.2).length := by
      simp only [pairPathLen]
      rw [if_neg hemp]
    by_cases hmi : (Rs_in.getD j (0, 0, 0)).1 = 0
    · have hpl0 : pairPathLen glf (Rs_out.getD i (0, 0, 0))
          (Rs_in.getD j (0, 0, 0)) = 0 := by
        rw [hpl, hmi]
        ring
      rw [hpl0, if_neg (by omega)]
      refine Finset.sum_eq_zero fun u _ => Finset.sum_eq_zero fun im _ => ?_
      simp only [pairContribK]
      rw [hmi]
      simp
    · have hD : 0 < (Rs_in.getD j (0, 0, 0)).1
          * (glf (Rs_in.getD j (0, 0, 0)).2.1 (Rs_in.getD j (0, 0, 0)).2.2
              (Rs_out.getD i (0, 0, 0)).2.1
              (Rs_out.getD i (0, 0, 0)).2.2).length :=
        Nat.mul_pos (Nat.pos_of_ne_zero hmi) hlen
      simp only [pairContribK_deltaR_eval nb Cg F Y nc Rs_in Rs_out glf sof
        i j z0 a0 b0 p0 hb hlen, mul_ite, mul_zero, Finset.mul_sum]
      rw [Finset.sum_congr rfl fun u (_ : u ∈ range (Rs_out.getD i (0, 0, 0)).1) =>
        sum_ite_push (P := beginR glf Rs_in Rs_out i j
          + u * ((Rs_in.getD j (0, 0, 0)).1
            * (glf (Rs_in.getD j (0, 0, 0)).2.1 (Rs_in.getD j (0, 0, 0)).2.2
                (Rs_out.getD i (0, 0, 0)).2.1
                (Rs_out.getD i (0, 0, 0)).2.2).length) ≤ p0 ∧
          p0 < beginR glf Rs_in Rs_out i j
            + u * ((Rs_in.getD j (0, 0, 0)).1
              * (glf (Rs_in.getD j (0, 0, 0)).2.1 (Rs_in.getD j (0, 0, 0)).2.2
                  (Rs_out.getD i (0, 0, 0)).2.1
                  (Rs_out.getD i (0, 0, 0)).2.2).length)
            + (Rs_in.getD j (0, 0, 0)).1
              * (glf (Rs_in.getD j (0, 0, 0)).2.1 (Rs_in.getD j (0, 0, 0)).2.2
                  (Rs_out.getD i (0, 0, 0)).2.1
                  (Rs_out.getD i (0, 0, 0)).2.2).length) _,
        sum_ite_stride (Rs_out.getD i (0, 0, 0)).1
          ((Rs_in.getD j (0, 0, 0)).1
            * (glf (Rs_in.getD j (0, 0, 0)).2.1 (Rs_in.getD j (0, 0, 0)).2.2
                (Rs_out.getD i (0, 0, 0)).2.1
                (Rs_out.getD i (0, 0, 0)).2.2).length)
          (beginR glf Rs_in Rs_out i j) p0 hD]
      rw [hpl, show (Rs_out.getD i (0, 0, 0)).1 * (Rs_in.getD j (0, 0, 0)).1
          * (glf (Rs_in.getD j (0, 0, 0)).2.1 (Rs_in.getD j (0, 0, 0)).2.2
              (Rs_out.getD i (0, 0, 0)).2.1
              (Rs_out.getD i (0, 0, 0)).2.2).length
          = (Rs_out.getD i (0, 0, 0)).1 * ((Rs_in.getD j (0, 0, 0)).1
            * (glf (Rs_in.getD j (0, 0, 0)).2.1 (Rs_in.getD j (0, 0, 0)).2.2
                (Rs_out.getD i (0, 0, 0)).2.1
                (Rs_out.getD i (0, 0, 0)).2.2).length) from by ring]
      by_cases hg : beginR glf Rs_in Rs_out i j ≤ p0 ∧
          p0 < beginR glf Rs_in Rs_out i j
            + (Rs_out.getD i (0, 0, 0)).1 * ((Rs_in.getD j (0, 0, 0)).1
              * (glf (Rs_in.getD j (0, 0, 0)).2.1 (Rs_in.getD j (0, 0, 0)).2.2
                  (Rs_out.getD i (0, 0, 0)).2.1
                  (Rs_out.getD i (0, 0, 0)).2.2).length)
      · rw [if_pos hg, if_pos hg]
        have hsub : p0 - (beginR glf Rs_in Rs_out i j
            + (p0 - beginR glf Rs_in Rs_out i j)
              / ((Rs_in.getD j (0, 0, 0)).1
                * (glf (Rs_in.getD j (0, 0, 0)).2.1 (Rs_in.getD j (0, 0, 0)).2.2
                    (Rs_out.getD i (0, 0, 0)).2.1
                    (Rs_out.getD i (0, 0, 0)).2.2).length)
              * ((Rs_in.getD j (0, 0, 0)).1
                * (glf (Rs_in.getD j (0, 0, 0)).2.1 (Rs_in.getD j (0, 0, 0)).2.2
                    (Rs_out.getD i (0, 0, 0)).2.1
                    (Rs_out.getD i (0, 0, 0)).2.2).length))
            = (p0 - beginR glf Rs_in Rs_out i j)
              % ((Rs_in.getD j (0, 0, 0)).1
                * (glf (Rs_in.getD j (0, 0, 0)).2.1 (Rs_in.getD j (0, 0, 0)).2.2
                    (Rs_out.getD i (0, 0, 0)).2.1
                    (Rs_out.getD i (0, 0, 0)).2.2).length) := by
          have h1 := Nat.div_add_mod' (p0 - beginR glf Rs_in Rs_out i j)
            ((Rs_in.getD j (0, 0, 0)).1
              * (glf (Rs_in.getD j (0, 0, 0)).2.1 (Rs_in.getD j (0, 0, 0)).2.2
                  (Rs_out.getD i (0, 0, 0)).2.1
                  (Rs_out.getD i (0, 0, 0)).2.2).length)
          omega
        rw [hsub]
        simp only [grad_R_entry, backwardYOffset_eq_forward]
        refine Finset.sum_congr rfl fun im _ => Finset.sum_congr rfl fun jm _ =>
          Finset.sum_congr rfl fun km _ => ?_
        ring
      · rw [if_neg hg, if_neg hg]
theorem pair_adjoint_Y (nz na nb : ℕ) (Cg : ℕ → ℕ → ℕ → ℕ → ℕ → ℕ → ℚ)
    (gk : ℕ → ℕ → ℕ → ℚ) (F : ℕ → ℕ → ℕ → ℚ) (R : ℕ → ℕ → ℕ → ℕ → ℚ)
    (nc : ℕ → ℕ → ℕ → ℕ → ℕ → ℚ)
    (Rs_in Rs_out : List Blk) (glf : ℕ → ℤ → ℕ → ℤ → List ℕ) (sof : List ℕ)
    (i j : ℕ) (k0 z0 a0 b0 : ℕ) (hz : z0 < nz) (ha : a0 < na) (hb : b0 < nb) :
    (∑ z ∈ range nz, ∑ a ∈ range na,
        ∑ u ∈ range (Rs_out.getD i (0, 0, 0)).1,
        ∑ im ∈ range (2 * (Rs_out.getD i (0, 0, 0)).2.1 + 1),
          gk z a (chanOffset Rs_out i
              + u * (2 * (Rs_out.getD i (0, 0, 0)).2.1 + 1) + im)
          * pairContribK nb Cg F (deltaY k0 z0 a0 b0) R nc Rs_in Rs_out glf sof
              i j z a u im)
      = grad_Y_contrib Cg gk F R nc Rs_in Rs_out glf sof i j k0 z0 a0 b0 := by
  rw [Finset.sum_eq_single_of_mem z0 (Finset.mem_range.mpr hz)
    (fun z _ hzne => by
      refine Finset.sum_eq_zero fun a _ => Finset.sum_eq_zero fun u _ =>
        Finset.sum_eq_zero fun im _ => ?_
      rw [pairContribK_deltaY_ne nb Cg F R nc Rs_in Rs_out glf sof
        i j k0 z0 a0 b0 z a u im (by tauto), mul_zero])]
  rw [Finset.sum_eq_single_of_mem a0 (Finset.mem_range.mpr ha)
    (fun a _ hane => by
      refine Finset.sum_eq_zero fun u _ => Finset.sum_eq_zero fun im _ => ?_
      rw [pairContribK_deltaY_ne nb Cg F R nc Rs_in Rs_out glf sof
        i j k0 z0 a0 b0 z0 a u im (by tauto), mul_zero])]
  simp only [pairContribK_deltaY_eval nb Cg F R nc Rs_in Rs_out glf sof
    i j k0 z0 a0 b0 hb, Finset.mul_sum, mul_ite, mul_zero]
  rw [sum3_rotate]
  simp only [grad_Y_contrib, backwardYOffset_eq_forward]
  refine Finset.sum_congr rfl fun k _ => ?_
  by_cases hg : forwardYOffset sof ((glf (Rs_in.getD j (0, 0, 0)).2.1
      (Rs_in.getD j (0, 0, 0)).2.2 (Rs_out.getD i (0, 0, 0)).2.1
      (Rs_out.getD i (0, 0, 0)).2.2).getD k 0) ≤ k0 ∧
      k0 < forwardYOffset sof ((glf (Rs_in.getD j (0, 0, 0)).2.1
        (Rs_in.getD j (0, 0, 0)).2.2 (Rs_out.getD i (0, 0, 0)).2.1
        (Rs_out.getD i (0, 0, 0)).2.2).getD k 0)
        + (2 * (glf (Rs_in.getD j (0, 0, 0)).2.1 (Rs_in.getD j (0, 0, 0)).2.2
            (Rs_out.getD i (0, 0, 0)).2.1
            (Rs_out.getD i (0, 0, 0)).2.2).getD k 0 + 1)
  · simp only [if_pos hg]
    refine Finset.sum_congr rfl fun u _ => Finset.sum_congr rfl fun im _ =>
      Finset.sum_congr rfl fun v _ => Finset.sum_congr rfl fun jm _ => ?_
    ring
  · simp only [if_neg hg, Finset.sum_const_zero]

/-- The harmonics gradient computed by the backward engine equals the
gradient of the output/`gk` pairing obtained by differentiating the
forward contraction with respect to the harmonics entry
`[k0, z0, a0, b0]`. -/
theorem backward_grad_Y_eq_autodiff (nz na nb : ℕ)
    (Cg : ℕ → ℕ → ℕ → ℕ → ℕ → ℕ → ℚ) (gk : ℕ → ℕ → ℕ → ℚ)
    (F : ℕ → ℕ → ℕ → ℚ) (R : ℕ → ℕ → ℕ → ℕ → ℚ)
    (nc : ℕ → ℕ → ℕ → ℕ → ℕ → ℚ)
    (Rs_in Rs_out : List Blk) (glf : ℕ → ℤ → ℕ → ℤ → List ℕ) (sof : List ℕ)
    (k0 z0 a0 b0 : ℕ) (hz : z0 < nz) (ha : a0 < na) (hb : b0 < nb) :
    KernelConvFn_backward_grad_Y Cg gk F R nc Rs_in Rs_out glf sof k0 z0 a0 b0
      = autodiff_grad_Y nz na nb Cg gk F R nc Rs_in Rs_out glf sof
          k0 z0 a0 b0 := by
  symm
  unfold autodiff_grad_Y
  calc (∑ z ∈ range nz, ∑ a ∈ range na, ∑ c ∈ range (rs.dim Rs_out),
          gk z a c * kernel_conv_fn_forward nb Cg F (deltaY k0 z0 a0 b0) R nc
            Rs_in Rs_out glf sof z a c)
      = ∑ z ∈ range nz, ∑ a ∈ range na, ∑ i ∈ range Rs_out.length,
          ∑ t ∈ range (blkSize (Rs_out.getD i (0, 0, 0))),
            gk z a (chanOffset Rs_out i + t)
            * kernel_conv_fn_forward nb Cg F (deltaY k0 z0 a0 b0) R nc
                Rs_in Rs_out glf sof z a (chanOffset Rs_out i + t) :=
        Finset.sum_congr rfl fun z _ => Finset.sum_congr rfl fun a _ =>
          sum_range_dim_blocks Rs_out _
    _ = ∑ z ∈ range nz, ∑ a ∈ range na, ∑ i ∈ range Rs_out.length,
          ∑ t ∈ range (blkSize (Rs_out.getD i (0, 0, 0))),
            gk z a (chanOffset Rs_out i + t)
            * ∑ j ∈ range Rs_in.length,
                pairContribK nb Cg F (deltaY k0 z0 a0 b0) R nc Rs_in Rs_out
                  glf sof i j z a
                  (t / (2 * (Rs_out.getD i (0, 0, 0)).2.1 + 1))
                  (t % (2 * (Rs_out.getD i (0, 0, 0)).2.1 + 1)) := by
        refine Finset.sum_congr rfl fun z _ => Finset.sum_congr rfl fun a _ =>
          Finset.sum_congr rfl fun i hi => Finset.sum_congr rfl fun t ht => ?_
        rw [forward_at_block nb Cg F (deltaY k0 z0 a0 b0) R nc Rs_in Rs_out
          glf sof z a (Finset.mem_range.mp hi) (Finset.mem_range.mp ht)]
    _ = ∑ z ∈ range nz, ∑ a ∈ range na, ∑ i ∈ range Rs_out.length,
          ∑ u ∈ range (Rs_out.getD i (0, 0, 0)).1,
          ∑ im ∈ range (2 * (Rs_out.getD i (0, 0, 0)).2.1 + 1),
            gk z a (chanOffset Rs_out i
                + u * (2 * (Rs_out.getD i (0, 0, 0)).2.1 + 1) + im)
            * ∑ j ∈ range Rs_in.length,
                pairContribK nb Cg F (deltaY k0 z0 a0 b0) R nc Rs_in Rs_out
                  glf sof i j z a u im := by
        refine Finset.sum_congr rfl fun z _ => Finset.sum_congr rfl fun a _ =>
          Finset.sum_congr rfl fun i _ => ?_
        rw [show range (blkSize (Rs_out.getD i (0, 0, 0)))
            = range ((Rs_out.getD i (0, 0, 0)).1
              * (2 * (Rs_out.getD i (0, 0, 0)).2.1 + 1)) from rfl,
          sum_range_mul_split]
        refine Finset.sum_congr rfl fun u _ => Finset.sum_congr rfl fun im him => ?_
        rw [mulAdd_div u (Finset.mem_range.mp him),
          mulAdd_mod u (Finset.mem_range.mp him), ← add_assoc]
    _ = ∑ z ∈ range nz, ∑ a ∈ range na, ∑ i ∈ range Rs_out.length,
          ∑ j ∈ range Rs_in.length,
          ∑ u ∈ range (Rs_out.getD i (0, 0, 0)).1,
          ∑ im ∈ range (2 * (Rs_out.getD i (0, 0, 0)).2.1 + 1),
            gk z a (chanOffset Rs_out i
                + u * (2 * (Rs_out.getD i (0, 0, 0)).2.1 + 1) + im)
            * pairContribK nb Cg F (deltaY k0 z0 a0 b0) R nc Rs_in Rs_out
                glf sof i j z a u im :=
        Finset.sum_congr rfl fun z _ => Finset.sum_congr rfl fun a _ =>
          Finset.sum_congr rfl fun i _ =>
            mul_sum_swap _ _ _
              (fun u im => gk z a (chanOffset Rs_out i
                + u * (2 * (Rs_out.getD i (0, 0, 0)).2.1 + 1) + im))
              (fun u im j => pairContribK nb Cg F (deltaY k0 z0 a0 b0) R nc
                Rs_in Rs_out glf sof i j z a u im)
    _ = ∑ i ∈ range Rs_out.length, ∑ j ∈ range Rs_in.length,
          ∑ z ∈ range nz, ∑ a ∈ range na,
          ∑ u ∈ range (Rs_out.getD i (0, 0, 0)).1,
          ∑ im ∈ range (2 * (Rs_out.getD i (0, 0, 0)).2.1 + 1),
            gk z a (chanOffset Rs_out i
                + u * (2 * (Rs_out.getD i (0, 0, 0)).2.1 + 1) + im)
            * pairContribK nb Cg F (deltaY k0 z0 a0 b0) R nc Rs_in Rs_out
                glf sof i j z a u im :=
        sum4_reorder nz na Rs_out.length Rs_in.length
          (fun z a i j => ∑ u ∈ range (Rs_out.getD i (0, 0, 0)).1,
            ∑ im ∈ range (2 * (Rs_out.getD i (0, 0, 0)).2.1 + 1),
              gk z a (chanOffset Rs_out i
                  + u * (2 * (Rs_out.getD i (0, 0, 0)).2.1 + 1) + im)
              * pairContribK nb Cg F (deltaY k0 z0 a0 b0) R nc Rs_in Rs_out
                  glf sof i j z a u im)
    _ = ∑ i ∈ range Rs_out.length, ∑ j ∈ range Rs_in.length,
          grad_Y_contrib Cg gk F R nc Rs_in Rs_out glf sof i j k0 z0 a0 b0 :=
        Finset.sum_congr rfl fun i _ => Finset.sum_congr rfl fun j _ =>
          pair_adjoint_Y nz na nb Cg gk F R nc Rs_in Rs_out glf sof i j
            k0 z0 a0 b0 hz ha hb
    _ = KernelConvFn_backward_grad_Y Cg gk F R nc Rs_in Rs_out glf sof
          k0 z0 a0 b0 := rfl

/-- In the non-aliasing regime — no pair's path slice of `grad_R` is
contiguous, so every `.contiguous()` at line 186 copies — the radial
gradient computed by the backward engine equals the gradient of the
output/`gk` pairing obtained by differentiating the forward contraction
with respect to the radial entry `[z0, a0, b0, p0]`.  (Without the
non-aliasing hypothesis the stored block is doubled; see
`C1_grad_R_doubles`.) -/
theorem backward_grad_R_eq_autodiff (nz na nb nP : ℕ)
    (Cg : ℕ → ℕ → ℕ → ℕ → ℕ → ℕ → ℚ) (gk : ℕ → ℕ → ℕ → ℚ)
    (F : ℕ → ℕ → ℕ → ℚ) (Y : ℕ → ℕ → ℕ → ℕ → ℚ)
    (nc : ℕ → ℕ → ℕ → ℕ → ℕ → ℚ)
    (Rs_in Rs_out : List Blk) (glf : ℕ → ℤ → ℕ → ℤ → List ℕ) (sof : List ℕ)
    (z0 a0 b0 p0 : ℕ) (hz : z0 < nz) (ha : a0 < na) (hb : b0 < nb)
    (hnc : ∀ i j, i < Rs_out.length → j < Rs_in.length →
      ¬ sliceContiguous nz na nb
          (pairPathLen glf (Rs_out.getD i (0, 0, 0)) (Rs_in.getD j (0, 0, 0)))
          nP) :
    KernelConvFn_backward_grad_R nz na nb nP Cg gk F Y nc Rs_in Rs_out glf sof
        z0 a0 b0 p0
      = autodiff_grad_R nz na nb Cg gk F Y nc Rs_in Rs_out glf sof
          z0 a0 b0 p0 := by
  have hfactor : KernelConvFn_backward_grad_R nz na nb nP Cg gk F Y nc Rs_in
      Rs_out glf sof z0 a0 b0 p0
      = ∑ i ∈ range Rs_out.length, ∑ j ∈ range Rs_in.length,
          if beginR glf Rs_in Rs_out i j ≤ p0 ∧
              p0 < beginR glf Rs_in Rs_out i j
                + pairPathLen glf (Rs_out.getD i (0, 0, 0))
                  (Rs_in.getD j (0, 0, 0)) then
            grad_R_entry Cg gk F Y nc Rs_in Rs_out glf sof i j z0 a0 b0
              (p0 - beginR glf Rs_in Rs_out i j)
          else 0 := by
    unfold KernelConvFn_backward_grad_R
    refine Finset.sum_congr rfl fun i hi => Finset.sum_congr rfl fun j hj => ?_
    rw [if_neg (hnc i j (Finset.mem_range.mp hi) (Finset.mem_range.mp hj)),
      one_mul]
  rw [hfactor]
  symm
  unfold autodiff_grad_R
  calc (∑ z ∈ range nz, ∑ a ∈ range na, ∑ c ∈ range (rs.dim Rs_out),
          gk z a c * kernel_conv_fn_forward nb Cg F Y (deltaR z0 a0 b0 p0) nc
            Rs_in Rs_out glf sof z a c)
      = ∑ z ∈ range nz, ∑ a ∈ range na, ∑ i ∈ range Rs_out.length,
          ∑ t ∈ range (blkSize (Rs_out.getD i (0, 0, 0))),
            gk z a (chanOffset Rs_out i + t)
            * kernel_conv_fn_forward nb Cg F Y (deltaR z0 a0 b0 p0) nc
                Rs_in Rs_out glf sof z a (chanOffset Rs_out i + t) :=
        Finset.sum_congr rfl fun z _ => Finset.sum_congr rfl fun a _ =>
          sum_range_dim_blocks Rs_out _
    _ = ∑ z ∈ range nz, ∑ a ∈ range na, ∑ i ∈ range Rs_out.length,
          ∑ t ∈ range (blkSize (Rs_out.getD i (0, 0, 0))),
            gk z a (chanOffset Rs_out i + t)
            * ∑ j ∈ range Rs_in.length,
                pairContribK nb Cg F Y (deltaR z0 a0 b0 p0) nc Rs_in Rs_out
                  glf sof i j z a
                  (t / (2 * (Rs_out.getD i (0, 0, 0)).2.1 + 1))
                  (t % (2 * (Rs_out.getD i (0, 0, 0)).2.1 + 1)) := by
        refine Finset.sum_congr rfl fun z _ => Finset.sum_congr rfl fun a _ =>
          Finset.sum_congr rfl fun i hi => Finset.sum_congr rfl fun t ht => ?_
        rw [forward_at_block nb Cg F Y (deltaR z0 a0 b0 p0) nc Rs_in Rs_out
          glf sof z a (Finset.mem_range.mp hi) (Finset.mem_range.mp ht)]
    _ = ∑ z ∈ range nz, ∑ a ∈ range na, ∑ i ∈ range Rs_out.length,
          ∑ u ∈ range (Rs_out.getD i (0, 0, 0)).1,
          ∑ im ∈ range (2 * (Rs_out.getD i (0, 0, 0)).2.1 + 1),
            gk z a (chanOffset Rs_out i
                + u * (2 * (Rs_out.getD i (0, 0, 0)).2.1 + 1) + im)
            * ∑ j ∈ range Rs_in.length,
                pairContribK nb Cg F Y (deltaR z0 a0 b0 p0) nc Rs_in Rs_out
                  glf sof i j z a u im := by
        refine Finset.sum_congr rfl fun z _ => Finset.sum_congr rfl fun a _ =>
          Finset.sum_congr rfl fun i _ => ?_
        rw [show range (blkSize (Rs_out.getD i (0, 0, 0)))
            = range ((Rs_out.getD i (0, 0, 0)).1
              * (2 * (Rs_out.getD i (0, 0, 0)).2.1 + 1)) from rfl,
          sum_range_mul_split]
        refine Finset.sum_congr rfl fun u _ => Finset.sum_congr rfl fun im him => ?_
        rw [mulAdd_div u (Finset.mem_range.mp him),
          mulAdd_mod u (Finset.mem_range.mp him), ← add_assoc]
    _ = ∑ z ∈ range nz, ∑ a ∈ range na, ∑ i ∈ range Rs_out.length,
          ∑ j ∈ range Rs_in.length,
          ∑ u ∈ range (Rs_out.getD i (0, 0, 0)).1,
          ∑ im ∈ range (2 * (Rs_out.getD i (0, 0, 0)).2.1 + 1),
            gk z a (chanOffset Rs_out i
                + u * (2 * (Rs_out.getD i (0, 0, 0)).2.1 + 1) + im)
            * pairContribK nb Cg F Y (deltaR z0 a0 b0 p0) nc Rs_in Rs_out
                glf sof i j z a u im :=
        Finset.sum_congr rfl fun z _ => Finset.sum_congr rfl fun a _ =>
          Finset.sum_congr rfl fun i _ =>
            mul_sum_swap _ _ _
              (fun u im => gk z a (chanOffset Rs_out i
                + u * (2 * (Rs_out.getD i (0, 0, 0)).2.1 + 1) + im))
              (fun u im j => pairContribK nb Cg F Y (deltaR z0 a0 b0 p0) nc
                Rs_in Rs_out glf sof i j z a u im)
    _ = ∑ i ∈ range Rs_out.length, ∑ j ∈ range Rs_in.length,
          ∑ z ∈ range nz, ∑ a ∈ range na,
          ∑ u ∈ range (Rs_out.getD i (0, 0, 0)).1,
          ∑ im ∈ range (2 * (Rs_out.getD i (0, 0, 0)).2.1 + 1),
            gk z a (chanOffset Rs_out i
                + u * (2 * (Rs_out.getD i (0, 0, 0)).2.1 + 1) + im)
            * pairContribK nb Cg F Y (deltaR z0 a0 b0 p0) nc Rs_in Rs_out
                glf sof i j z a u im :=
        sum4_reorder nz na Rs_out.length Rs_in.length
          (fun z a i j => ∑ u ∈ range (Rs_out.getD i (0, 0, 0)).1,
            ∑ im ∈ range (2 * (Rs_out.getD i (0, 0, 0)).2.1 + 1),
              gk z a (chanOffset Rs_out i
                  + u * (2 * (Rs_out.getD i (0, 0, 0)).2.1 + 1) + im)
              * pairContribK nb Cg F Y (deltaR z0 a0 b0 p0) nc Rs_in Rs_out
                  glf sof i j z a u im)
    _ = ∑ i ∈ range Rs_out.length, ∑ j ∈ range Rs_in.length,
          if beginR glf Rs_in Rs_out i j ≤ p0 ∧
              p0 < beginR glf Rs_in Rs_out i j
                + pairPathLen glf (Rs_out.getD i (0, 0, 0))
                  (Rs_in.getD j (0, 0, 0)) then
            grad_R_entry Cg gk F Y nc Rs_in Rs_out glf sof i j z0 a0 b0
              (p0 - beginR glf Rs_in Rs_out i j)
          else 0 :=
        Finset.sum_congr rfl fun i _ => Finset.sum_congr rfl fun j _ =>
          pair_adjoint_R nz na nb Cg gk F Y nc Rs_in Rs_out glf sof i j
            z0 a0 b0 p0 hz ha hb

/-- The feature gradient computed by the backward engine equals the
gradient of the output/`gk` pairing obtained by differentiating the
forward contraction with respect to the feature entry `[z0, b0, c0]`. -/
theorem backward_grad_F_eq_autodiff (nz na nb : ℕ)
    (Cg : ℕ → ℕ → ℕ → ℕ → ℕ → ℕ → ℚ) (gk : ℕ → ℕ → ℕ → ℚ)
    (Y : ℕ → ℕ → ℕ → ℕ → ℚ) (R : ℕ → ℕ → ℕ → ℕ → ℚ)
    (nc : ℕ → ℕ → ℕ → ℕ → ℕ → ℚ)
    (Rs_in Rs_out : List Blk) (glf : ℕ → ℤ → ℕ → ℤ → List ℕ) (sof : List ℕ)
    (z0 b0 c0 : ℕ) (hz : z0 < nz) (hb : b0 < nb) :
    KernelConvFn_backward_grad_F na Cg gk Y R nc Rs_in Rs_out glf sof z0 b0 c0
      = autodiff_grad_F nz na nb Cg gk Y R nc Rs_in Rs_out glf sof z0 b0 c0 := by
  symm
  unfold autodiff_grad_F
  calc (∑ z ∈ range nz, ∑ a ∈ range na, ∑ c ∈ range (rs.dim Rs_out),
          gk z a c * kernel_conv_fn_forward nb Cg (deltaF z0 b0 c0) Y R nc
            Rs_in Rs_out glf sof z a c)
      = ∑ z ∈ range nz, ∑ a ∈ range na, ∑ i ∈ range Rs_out.length,
          ∑ t ∈ range (blkSize (Rs_out.getD i (0, 0, 0))),
            gk z a (chanOffset Rs_out i + t)
            * kernel_conv_fn_forward nb Cg (deltaF z0 b0 c0) Y R nc
                Rs_in Rs_out glf sof z a (chanOffset Rs_out i + t) :=
        Finset.sum_congr rfl fun z _ => Finset.sum_congr rfl fun a _ =>
          sum_range_dim_blocks Rs_out _
    _ = ∑ z ∈ range nz, ∑ a ∈ range na, ∑ i ∈ range Rs_out.length,
          ∑ t ∈ range (blkSize (Rs_out.getD i (0, 0, 0))),
            gk z a (chanOffset Rs_out i + t)
            * ∑ j ∈ range Rs_in.length,
                pairContribK nb Cg (deltaF z0 b0 c0) Y R nc Rs_in Rs_out glf sof
                  i j z a (t / (2 * (Rs_out.getD i (0, 0, 0)).2.1 + 1))
                  (t % (2 * (Rs_out.getD i (0, 0, 0)).2.1 + 1)) := by
        refine Finset.sum_congr rfl fun z _ => Finset.sum_congr rfl fun a _ =>
          Finset.sum_congr rfl fun i hi => Finset.sum_congr rfl fun t ht => ?_
        rw [forward_at_block nb Cg (deltaF z0 b0 c0) Y R nc Rs_in Rs_out glf sof
          z a (Finset.mem_range.mp hi) (Finset.mem_range.mp ht)]
    _ = ∑ z ∈ range nz, ∑ a ∈ range na, ∑ i ∈ range Rs_out.length,
          ∑ u ∈ range (Rs_out.getD i (0, 0, 0)).1,
          ∑ im ∈ range (2 * (Rs_out.getD i (0, 0, 0)).2.1 + 1),
            gk z a (chanOffset Rs_out i
                + u * (2 * (Rs_out.getD i (0, 0, 0)).2.1 + 1) + im)
            * ∑ j ∈ range Rs_in.length,
                pairContribK nb Cg (deltaF z0 b0 c0) Y R nc Rs_in Rs_out glf sof
                  i j z a u im := by
        refine Finset.sum_congr rfl fun z _ => Finset.sum_congr rfl fun a _ =>
          Finset.sum_congr rfl fun i _ => ?_
        rw [show range (blkSize (Rs_out.getD i (0, 0, 0)))
            = range ((Rs_out.getD i (0, 0, 0)).1
              * (2 * (Rs_out.getD i (0, 0, 0)).2.1 + 1)) from rfl,
          sum_range_mul_split]
        refine Finset.sum_congr rfl fun u _ => Finset.sum_congr rfl fun im him => ?_
        rw [mulAdd_div u (Finset.mem_range.mp him),
          mulAdd_mod u (Finset.mem_range.mp him), ← add_assoc]
    _ = ∑ z ∈ range nz, ∑ a ∈ range na, ∑ i ∈ range Rs_out.length,
          ∑ j ∈ range Rs_in.length,
          ∑ u ∈ range (Rs_out.getD i (0, 0, 0)).1,
          ∑ im ∈ range (2 * (Rs_out.getD i (0, 0, 0)).2.1 + 1),
            gk z a (chanOffset Rs_out i
                + u * (2 * (Rs_out.getD i (0, 0, 0)).2.1 + 1) + im)
            * pairContribK nb Cg (deltaF z0 b0 c0) Y R nc Rs_in Rs_out glf sof
                i j z a u im :=
        Finset.sum_congr rfl fun z _ => Finset.sum_congr rfl fun a _ =>
          Finset.sum_congr rfl fun i _ =>
            mul_sum_swap _ _ _
              (fun u im => gk z a (chanOffset Rs_out i
                + u * (2 * (Rs_out.getD i (0, 0, 0)).2.1 + 1) + im))
              (fun u im j => pairContribK nb Cg (deltaF z0 b0 c0) Y R nc
                Rs_in Rs_out glf sof i j z a u im)
    _ = ∑ i ∈ range Rs_out.length, ∑ j ∈ range Rs_in.length,
          ∑ z ∈ range nz, ∑ a ∈ range na,
          ∑ u ∈ range (Rs_out.getD i (0, 0, 0)).1,
          ∑ im ∈ range (2 * (Rs_out.getD i (0, 0, 0)).2.1 + 1),
            gk z a (chanOffset Rs_out i
                + u * (2 * (Rs_out.getD i (0, 0, 0)).2.1 + 1) + im)
            * pairContribK nb Cg (deltaF z0 b0 c0) Y R nc Rs_in Rs_out glf sof
                i j z a u im :=
        sum4_reorder nz na Rs_out.length Rs_in.length
          (fun z a i j => ∑ u ∈ range (Rs_out.getD i (0, 0, 0)).1,
            ∑ im ∈ range (2 * (Rs_out.getD i (0, 0, 0)).2.1 + 1),
              gk z a (chanOffset Rs_out i
                  + u * (2 * (Rs_out.getD i (0, 0, 0)).2.1 + 1) + im)
              * pairContribK nb Cg (deltaF z0 b0 c0) Y R nc Rs_in Rs_out glf sof
                  i j z a u im)
    _ = ∑ i ∈ range Rs_out.length, ∑ j ∈ range Rs_in.length,
          if chanOffset Rs_in j ≤ c0 ∧ c0 < chanOffset Rs_in (j + 1) then
            grad_F_contrib na Cg gk Y R nc Rs_in Rs_out glf sof i j z0 b0
              ((c0 - chanOffset Rs_in j)
                / (2 * (Rs_in.getD j (0, 0, 0)).2.1 + 1))
              ((c0 - chanOffset Rs_in j)
                % (2 * (Rs_in.getD j (0, 0, 0)).2.1 + 1))
          else 0 :=
        Finset.sum_congr rfl fun i _ => Finset.sum_congr rfl fun j hj =>
          pair_adjoint_F nz na nb Cg gk Y R nc Rs_in Rs_out glf sof i j
            (Finset.mem_range.mp hj) z0 b0 c0 hz hb
    _ = ∑ j ∈ range Rs_in.length, ∑ i ∈ range Rs_out.length,
          if chanOffset Rs_in j ≤ c0 ∧ c0 < chanOffset Rs_in (j + 1) then
            grad_F_contrib na Cg gk Y R nc Rs_in Rs_out glf sof i j z0 b0
              ((c0 - chanOffset Rs_in j)
                / (2 * (Rs_in.getD j (0, 0, 0)).2.1 + 1))
              ((c0 - chanOffset Rs_in j)
                % (2 * (Rs_in.getD j (0, 0, 0)).2.1 + 1))
          else 0 := Finset.sum_comm
    _ = KernelConvFn_backward_grad_F na Cg gk Y R nc Rs_in Rs_out glf sof
          z0 b0 c0 := by
        unfold KernelConvFn_backward_grad_F
        refine Finset.sum_congr rfl fun j _ => ?_
        rw [sum_ite_push]

/-- C1 (code bug): at a concrete input satisfying the shape contracts —
`batch = a = b = 1`, one scalar block on each side (`Rs = [(1, 0, 1)]`),
a single filter order, path axis of size `1`, all-ones tensors — the
path slice of `grad_R` taken at line 186 is contiguous, so
`.contiguous()` aliases instead of copying: line 221 writes the block
through the alias and line 228 adds it to itself, and the backward pass
returns `2` for the radial gradient entry, while differentiating the
forward contraction gives `1`.  The hand-written backward therefore does
not equal the autodiff gradient on this input.  (The feature and
harmonics gradients always agree, and the radial gradient agrees
whenever no pair's slice is contiguous: `backward_grad_F_eq_autodiff`,
`backward_grad_Y_eq_autodiff`, `backward_grad_R_eq_autodiff`.) -/
theorem C1_grad_R_doubles :
    KernelConvFn_backward_grad_R 1 1 1 1 (fun _ _ _ _ _ _ => 1)
        (fun _ _ _ => 1) (fun _ _ _ => 1) (fun _ _ _ _ => 1)
        (fun _ _ _ _ _ => 1) [(1, 0, 1)] [(1, 0, 1)] (fun _ _ _ _ => [0])
        [0] 0 0 0 0 = 2
    ∧ autodiff_grad_R 1 1 1 (fun _ _ _ _ _ _ => 1) (fun _ _ _ => 1)
        (fun _ _ _ => 1) (fun _ _ _ _ => 1) (fun _ _ _ _ _ => 1)
        [(1, 0, 1)] [(1, 0, 1)] (fun _ _ _ _ => [0]) [0] 0 0 0 0 = 1 := by
  constructor
  · norm_num [KernelConvFn_backward_grad_R, grad_R_entry, sliceContiguous,
      beginR, pairPathLen, rowPathLen, chanOffset, blkSize, backwardYOffset]
  · norm_num [autodiff_grad_R, kernel_conv_fn_forward, pairContribK, deltaR,
      rs.dim, blkSize, chanOffset, beginR, pairPathLen, rowPathLen,
      forwardYOffset]
    decide

/-- C10: the forward contraction `kernel_conv_fn_forward` is linear in the
feature tensor `F`: with every other input fixed, the output for
`F1 + F2` is the sum of the outputs for `F1` and `F2`, and the output for
`q * F1` is `q` times the output for `F1` (every output entry; exact
rational arithmetic). -/
theorem C10_forward_linear_in_F (nb : ℕ) (Cg : ℕ → ℕ → ℕ → ℕ → ℕ → ℕ → ℚ)
    (F1 F2 : ℕ → ℕ → ℕ → ℚ) (q : ℚ) (Y : ℕ → ℕ → ℕ → ℕ → ℚ)
    (R : ℕ → ℕ → ℕ → ℕ → ℚ) (nc : ℕ → ℕ → ℕ → ℕ → ℕ → ℚ)
    (Rs_in Rs_out : List Blk) (glf : ℕ → ℤ → ℕ → ℤ → List ℕ) (sof : List ℕ)
    (z a c : ℕ) :
    kernel_conv_fn_forward nb Cg (fun z' b' c' => F1 z' b' c' + F2 z' b' c')
        Y R nc Rs_in Rs_out glf sof z a c
      = kernel_conv_fn_forward nb Cg F1 Y R nc Rs_in Rs_out glf sof z a c
        + kernel_conv_fn_forward nb Cg F2 Y R nc Rs_in Rs_out glf sof z a c
    ∧ kernel_conv_fn_forward nb Cg (fun z' b' c' => q * F1 z' b' c')
        Y R nc Rs_in Rs_out glf sof z a c
      = q * kernel_conv_fn_forward nb Cg F1 Y R nc Rs_in Rs_out glf sof z a c := by
  constructor
  · unfold kernel_conv_fn_forward
    rw [← Finset.sum_add_distrib]
    refine Finset.sum_congr rfl fun i _ => ?_
    by_cases hg : chanOffset Rs_out i ≤ c ∧ c < chanOffset Rs_out (i + 1)
    · simp only [if_pos hg, pairContribK, ← Finset.sum_add_distrib]
      refine Finset.sum_congr rfl fun j _ => Finset.sum_congr rfl fun k _ =>
        Finset.sum_congr rfl fun b _ => Finset.sum_congr rfl fun v _ =>
        Finset.sum_congr rfl fun jm _ => Finset.sum_congr rfl fun km _ => ?_
      ring
    · simp [if_neg hg]
  · unfold kernel_conv_fn_forward
    rw [Finset.mul_sum]
    refine Finset.sum_congr rfl fun i _ => ?_
    by_cases hg : chanOffset Rs_out i ≤ c ∧ c < chanOffset Rs_out (i + 1)
    · simp only [if_pos hg, pairContribK, Finset.mul_sum]
      refine Finset.sum_congr rfl fun j _ => Finset.sum_congr rfl fun k _ =>
        Finset.sum_congr rfl fun b _ => Finset.sum_congr rfl fun v _ =>
        Finset.sum_congr rfl fun jm _ => Finset.sum_congr rfl fun km _ => ?_
      ring
    · simp [if_neg hg]

/-- C3: masking — whenever the mask entry of an output row `[z, a]` is
zero, every channel of that output row of `KernelConv.forward` is exactly
zero, whatever the features, harmonics, radial weights or coefficient
table are (the contraction output is multiplied by the mask row,
line 59). -/
theorem C3_mask_zero_row (nb : ℕ) (Cg : ℕ → ℕ → ℕ → ℕ → ℕ → ℕ → ℚ)
    (F : ℕ → ℕ → ℕ → ℚ) (Y : ℕ → ℕ → ℕ → ℕ → ℚ) (R : ℕ → ℕ → ℕ → ℕ → ℚ)
    (tbl : ℕ → ℕ → ℕ → ℚ) (radii : ℕ → ℕ → ℕ → ℚ) (mask : ℕ → ℕ → ℚ)
    (Rs_in Rs_out : List Blk) (glf : ℕ → ℤ → ℕ → ℤ → List ℕ) (sof : List ℕ)
    (z a c : ℕ) (h : mask z a = 0) :
    KernelConv_forward_out nb Cg F Y R tbl radii mask Rs_in Rs_out glf sof
      z a c = 0 := by
  unfold KernelConv_forward_out
  rw [h, mul_zero]

/-- Witness for C3 at a concrete instance. -/
theorem C3_mask_zero_row_witness :
    KernelConv_forward_out 1 (fun _ _ _ _ _ _ => 1) (fun _ _ _ => 1)
      (fun _ _ _ _ => 1) (fun _ _ _ _ => 1) (fun _ _ _ => 1) (fun _ _ _ => 1)
      (fun _ _ => 0) [(1, 0, 1)] [(1, 0, 1)] (fun _ _ _ _ => [0]) [0]
      0 0 0 = 0 :=
  C3_mask_zero_row 1 (fun _ _ _ _ _ _ => 1) (fun _ _ _ => 1)
    (fun _ _ _ _ => 1) (fun _ _ _ _ => 1) (fun _ _ _ => 1) (fun _ _ _ => 1)
    (fun _ _ => 0) [(1, 0, 1)] [(1, 0, 1)] (fun _ _ _ _ => [0]) [0]
    0 0 0 rfl

/-- C8: for a batch-point pair whose distance is exactly zero the
normalization coefficient selected for every (output block, input block)
pair is the table entry at selection index `1` (the "self" entry), and for
a pair with nonzero distance it is the entry at index `0` (the "other"
entry) — the selection `norm_coef[:, :, (radii == 0).type(torch.long)]`
of line 48. -/
theorem C8_self_interaction_selection (tbl : ℕ → ℕ → ℕ → ℚ)
    (radii : ℕ → ℕ → ℕ → ℚ) (i j z a b : ℕ) :
    (radii z a b = 0 → norm_coef_select tbl radii i j z a b = tbl i j 1)
    ∧ (radii z a b ≠ 0 → norm_coef_select tbl radii i j z a b = tbl i j 0) := by
  constructor
  · intro h
    unfold norm_coef_select
    rw [if_pos h]
  · intro h
    unfold norm_coef_select
    rw [if_neg h]

/-- Witness for C8 at concrete inputs: a zero-distance pair selects entry
`1`, a nonzero-distance pair selects entry `0`. -/
theorem C8_self_interaction_selection_witness :
    norm_coef_select (fun _ _ s => (s : ℚ)) (fun _ _ _ => 0) 0 0 0 0 0
        = (fun _ _ s => (s : ℚ)) 0 0 1
    ∧ norm_coef_select (fun _ _ s => (s : ℚ)) (fun _ _ _ => 1) 0 0 0 0 0
        = (fun _ _ s => (s : ℚ)) 0 0 0 :=
  ⟨(C8_self_interaction_selection (fun _ _ s => (s : ℚ)) (fun _ _ _ => 0)
      0 0 0 0 0).1 rfl,
   (C8_self_interaction_selection (fun _ _ s => (s : ℚ)) (fun _ _ _ => 1)
      0 0 0 0 0).2 (by norm_num)⟩

/-- C9 (amended): `KernelConv.forward` fails immediately whenever the
displacement tensor's trailing dimension is not `3` (the assertion at
lines 32-33), and that is its only shape check: with trailing dimension
`3` the call succeeds whatever the feature tensor's channel dimension
`nF` is — no comparison of `nF` against `rs.dim Rs_in` is performed. -/
theorem C9_xyz_assertion (nF xyz nb : ℕ) (Cg : ℕ → ℕ → ℕ → ℕ → ℕ → ℕ → ℚ)
    (F : ℕ → ℕ → ℕ → ℚ) (Y : ℕ → ℕ → ℕ → ℕ → ℚ) (R : ℕ → ℕ → ℕ → ℕ → ℚ)
    (tbl : ℕ → ℕ → ℕ → ℚ) (radii : ℕ → ℕ → ℕ → ℚ) (mask : ℕ → ℕ → ℚ)
    (Rs_in Rs_out : List Blk) (glf : ℕ → ℤ → ℕ → ℤ → List ℕ) (sof : List ℕ) :
    (xyz ≠ 3 →
      KernelConv_forward nF xyz nb Cg F Y R tbl radii mask Rs_in Rs_out glf sof
        = none)
    ∧ (xyz = 3 →
      (KernelConv_forward nF xyz nb Cg F Y R tbl radii mask Rs_in Rs_out glf
        sof).isSome = true) := by
  constructor
  · intro h
    unfold KernelConv_forward
    rw [if_neg h]
  · intro h
    unfold KernelConv_forward
    rw [if_pos h]
    rfl

/-- Witness for C9: trailing dimension `4` is rejected; trailing dimension
`3` is accepted even with feature channel dimension `2 ≠ rs.dim [(1,0,1)]`. -/
theorem C9_xyz_assertion_witness :
    KernelConv_forward 2 4 1 (fun _ _ _ _ _ _ => 1) (fun _ _ _ => 1)
        (fun _ _ _ _ => 1) (fun _ _ _ _ => 1) (fun _ _ _ => 1) (fun _ _ _ => 1)
        (fun _ _ => 1) [(1, 0, 1)] [(1, 0, 1)] (fun _ _ _ _ => [0]) [0] = none
    ∧ (KernelConv_forward 2 3 1 (fun _ _ _ _ _ _ => 1) (fun _ _ _ => 1)
        (fun _ _ _ _ => 1) (fun _ _ _ _ => 1) (fun _ _ _ => 1) (fun _ _ _ => 1)
        (fun _ _ => 1) [(1, 0, 1)] [(1, 0, 1)] (fun _ _ _ _ => [0])
        [0]).isSome = true :=
  ⟨(C9_xyz_assertion 2 4 1 (fun _ _ _ _ _ _ => 1) (fun _ _ _ => 1)
      (fun _ _ _ _ => 1) (fun _ _ _ _ => 1) (fun _ _ _ => 1) (fun _ _ _ => 1)
      (fun _ _ => 1) [(1, 0, 1)] [(1, 0, 1)] (fun _ _ _ _ => [0]) [0]).1
      (by norm_num),
   (C9_xyz_assertion 2 3 1 (fun _ _ _ _ _ _ => 1) (fun _ _ _ => 1)
      (fun _ _ _ _ => 1) (fun _ _ _ _ => 1) (fun _ _ _ => 1) (fun _ _ _ => 1)
      (fun _ _ => 1) [(1, 0, 1)] [(1, 0, 1)] (fun _ _ _ _ => [0]) [0]).2 rfl⟩

/-- Counterexample to C9 as stated: a forward call whose feature channel
dimension (`2`) differs from the declared total dimension of `Rs_in`
(`rs.dim [(1, 0, 1)] = 1`) succeeds — the claimed immediate failure on a
feature-channel mismatch does not happen. -/
theorem C9_counterexample :
    (KernelConv_forward 2 3 1 (fun _ _ _ _ _ _ => 1) (fun _ _ _ => 1)
        (fun _ _ _ _ => 1) (fun _ _ _ _ => 1) (fun _ _ _ => 1) (fun _ _ _ => 1)
        (fun _ _ => 1) [(1, 0, 1)] [(1, 0, 1)] (fun _ _ _ _ => [0])
        [0]).isSome = true
    ∧ (2 : ℕ) ≠ rs.dim [(1, 0, 1)] := by
  constructor
  · rfl
  · decide

/-- C7: for every combination of required gradients, everything
`KernelConvFn.backward` reads when computing the requested gradients was
saved by `KernelConvFn.forward`: computing `grad_F` reads only the saved
`Y` and `R`, `grad_Y` only `R` and `F`, `grad_R` only `Y` and `F`, and
whenever a gradient can be requested at all (`needs_input_grad` implies
the input required a gradient at forward time) the corresponding saved
slots are filled — no `None` tensor is ever dereferenced. -/
theorem C7_backward_reads_saved (rgF rgY rgR nF nY nR : Bool)
    (F : ℕ → ℕ → ℕ → ℚ) (Y R : ℕ → ℕ → ℕ → ℕ → ℚ)
    (hF : nF = true → rgF = true) (hY : nY = true → rgY = true)
    (hR : nR = true → rgR = true) :
    (nF = true → (forward_saved rgF rgY rgR F Y R).2.1.isSome = true
        ∧ (forward_saved rgF rgY rgR F Y R).2.2.isSome = true)
    ∧ (nY = true → (forward_saved rgF rgY rgR F Y R).2.2.isSome = true
        ∧ (forward_saved rgF rgY rgR F Y R).1.isSome = true)
    ∧ (nR = true → (forward_saved rgF rgY rgR F Y R).2.1.isSome = true
        ∧ (forward_saved rgF rgY rgR F Y R).1.isSome = true) := by
  unfold forward_saved
  cases rgF <;> cases rgY <;> cases rgR <;> simp_all

/-- Witness for C7: a forward call with `F.requires_grad` set retains `Y`
and `R`, so a backward pass requesting `grad_F` finds both saved. -/
theorem C7_backward_reads_saved_witness :
    (forward_saved true false false (fun _ _ _ => 1) (fun _ _ _ _ => 1)
        (fun _ _ _ _ => 1)).2.1.isSome = true
    ∧ (forward_saved true false false (fun _ _ _ => 1) (fun _ _ _ _ => 1)
        (fun _ _ _ _ => 1)).2.2.isSome = true :=
  (C7_backward_reads_saved true false false true false false
    (fun _ _ _ => 1) (fun _ _ _ _ => 1) (fun _ _ _ _ => 1)
    (fun _ => rfl) (fun h => h) (fun h => h)).1 rfl

theorem rs_dim_eq_totalDimSpec (Rs : List Blk) : rs.dim Rs = totalDimSpec Rs := by
  induction Rs with
  | nil => rfl
  | cons x t ih =>
      simp only [rs.dim, List.map_cons, List.sum_cons, totalDimSpec]
      rw [← ih]
      rfl

/-- C2: the output of the forward contraction has shape exactly
`[batch, a, total_dim(Rs_out)]` where `total_dim` is the sum of
`multiplicity * (2 * order + 1)` over the blocks of `Rs_out`: the
allocation at line 74 uses exactly that channel count, and no channel at
or beyond it is ever written (every write stays inside an output block
slice), so the embedded forward value is `0` there. -/
theorem C2_output_shape (batch a nb : ℕ) (Cg : ℕ → ℕ → ℕ → ℕ → ℕ → ℕ → ℚ)
    (F : ℕ → ℕ → ℕ → ℚ) (Y : ℕ → ℕ → ℕ → ℕ → ℚ) (R : ℕ → ℕ → ℕ → ℕ → ℚ)
    (nc : ℕ → ℕ → ℕ → ℕ → ℕ → ℚ)
    (Rs_in Rs_out : List Blk) (glf : ℕ → ℤ → ℕ → ℤ → List ℕ) (sof : List ℕ) :
    kernel_conv_shape batch a Rs_out = [batch, a, totalDimSpec Rs_out]
    ∧ ∀ z a' c, rs.dim Rs_out ≤ c →
        kernel_conv_fn_forward nb Cg F Y R nc Rs_in Rs_out glf sof z a' c = 0 := by
  constructor
  · unfold kernel_conv_shape
    rw [rs_dim_eq_totalDimSpec]
  · intro z a' c hc
    unfold kernel_conv_fn_forward
    refine Finset.sum_eq_zero fun i _ => ?_
    rw [if_neg]
    intro ⟨h1, h2⟩
    have := chanOffset_le_dim Rs_out (i + 1)
    omega

/-- Witness for C2 at a concrete instance: shape `[2, 3, 1]` and a zero
entry at the first out-of-range channel. -/
theorem C2_output_shape_witness :
    kernel_conv_shape 2 3 [(1, 0, 1)] = [2, 3, totalDimSpec [(1, 0, 1)]]
    ∧ kernel_conv_fn_forward 1 (fun _ _ _ _ _ _ => 1) (fun _ _ _ => 1)
        (fun _ _ _ _ => 1) (fun _ _ _ _ => 1) (fun _ _ _ _ _ => 1)
        [(1, 0, 1)] [(1, 0, 1)] (fun _ _ _ _ => [0]) [0] 0 0 1 = 0 :=
  ⟨(C2_output_shape 2 3 1 (fun _ _ _ _ _ _ => 1) (fun _ _ _ => 1)
      (fun _ _ _ _ => 1) (fun _ _ _ _ => 1) (fun _ _ _ _ _ => 1)
      [(1, 0, 1)] [(1, 0, 1)] (fun _ _ _ _ => [0]) [0]).1,
   (C2_output_shape 2 3 1 (fun _ _ _ _ _ _ => 1) (fun _ _ _ => 1)
      (fun _ _ _ _ => 1) (fun _ _ _ _ => 1) (fun _ _ _ _ _ => 1)
      [(1, 0, 1)] [(1, 0, 1)] (fun _ _ _ _ => [0]) [0]).2 0 0 1 (by decide)⟩

/-- C4: an (output block, input block) pair whose filter set is empty is a
defined skip, not an error: its contribution to every output entry is
zero, it consumes zero entries of the path dimension of `R`, and the
running path offset for the next pair is unchanged. -/
theorem C4_empty_filter_skip (nb : ℕ) (Cg : ℕ → ℕ → ℕ → ℕ → ℕ → ℕ → ℚ)
    (F : ℕ → ℕ → ℕ → ℚ) (Y : ℕ → ℕ → ℕ → ℕ → ℚ) (R : ℕ → ℕ → ℕ → ℕ → ℚ)
    (nc : ℕ → ℕ → ℕ → ℕ → ℕ → ℚ)
    (Rs_in Rs_out : List Blk) (glf : ℕ → ℤ → ℕ → ℤ → List ℕ) (sof : List ℕ)
    (i j : ℕ) (hj : j < Rs_in.length)
    (hempty : glf (Rs_in.getD j (0, 0, 0)).2.1 (Rs_in.getD j (0, 0, 0)).2.2
        (Rs_out.getD i (0, 0, 0)).2.1 (Rs_out.getD i (0, 0, 0)).2.2 = []) :
    (∀ z a u im,
        pairContribK nb Cg F Y R nc Rs_in Rs_out glf sof i j z a u im = 0)
    ∧ pairPathLen glf (Rs_out.getD i (0, 0, 0)) (Rs_in.getD j (0, 0, 0)) = 0
    ∧ beginR glf Rs_in Rs_out i (j + 1) = beginR glf Rs_in Rs_out i j := by
  refine ⟨?_, ?_, ?_⟩
  · intro z a u im
    simp only [pairContribK]
    rw [hempty]
    simp
  · simp only [pairPathLen]
    rw [hempty]
    simp
  · rw [beginR_succ_j glf Rs_in Rs_out i hj]
    simp only [pairPathLen]
    rw [hempty]
    simp

theorem getD_mem_of_lt (l : List ℕ) {idx : ℕ} (h : idx < l.length) :
    l.getD idx 0 ∈ l := by
  rw [List.getD_eq_getElem?_getD, List.getElem?_eq_getElem h]
  exact List.getElem_mem h

theorem sorted_filter_lt_eq_take (sof : List ℕ) :
    ∀ idx : ℕ, idx < sof.length → List.Sorted (· < ·) sof →
      sof.filter (fun l => l < sof.getD idx 0) = sof.take idx := by
  induction sof with
  | nil =>
      intro idx h
      simp at h
  | cons x t ih =>
      intro idx h hs
      obtain ⟨hxlt, hts⟩ := List.sorted_cons.mp hs
      match idx with
      | 0 =>
          simp only [List.getD_cons_zero, List.take_zero, List.filter_cons]
          rw [if_neg (by simp)]
          exact List.filter_eq_nil_iff.mpr fun a ha => by
            simp only [decide_eq_true_eq]
            exact fun hlt => absurd (hxlt a ha) (by omega)
      | idx' + 1 =>
          have hidx' : idx' < t.length := by simpa using h
          simp only [List.getD_cons_succ, List.take_succ_cons, List.filter_cons]
          rw [if_pos (by
            simp only [decide_eq_true_eq]
            exact hxlt _ (getD_mem_of_lt t hidx'))]
          rw [ih idx' hidx' hts]

theorem getD_map_nat (f : ℕ → ℕ) (l : List ℕ) {i : ℕ} (h : i < l.length) :
    (l.map f).getD i 0 = f (l.getD i 0) := by
  rw [List.getD_eq_getElem?_getD, List.getD_eq_getElem?_getD, List.getElem?_map,
    List.getElem?_eq_getElem h]
  rfl

/-- C5: in both the forward and the backward traversal, the slice of the
concatenated spherical-harmonics tensor used for filter order `l_filter`
starts at the offset given by summing `2 * l + 1` over all orders of the
global filter-order set strictly smaller than `l_filter` — the two
computations (line 104 and line 204) agree with each other and with the
spec's formulation — and, when the global set is sorted ascending and
`l_filter` is its element at position `idx`, that offset is exactly the
start of the `idx`-th block of the concatenation and the slice of length
`2 * l_filter + 1` ends exactly where the `idx`-th block ends. -/
theorem C5_harmonics_slice_offset (sof : List ℕ) (l_filter : ℕ) :
    forwardYOffset sof l_filter = backwardYOffset sof l_filter
    ∧ forwardYOffset sof l_filter = yOffsetSpec sof l_filter
    ∧ ∀ idx : ℕ, idx < sof.length → List.Sorted (· < ·) sof →
        sof.getD idx 0 = l_filter →
        forwardYOffset sof l_filter
            = ((sof.take idx).map (fun l => 2 * l + 1)).sum
        ∧ forwardYOffset sof l_filter + (2 * l_filter + 1)
            = ((sof.take (idx + 1)).map (fun l => 2 * l + 1)).sum := by
  refine ⟨rfl, ?_, ?_⟩
  · induction sof with
    | nil => rfl
    | cons x t ih =>
        simp only [forwardYOffset, yOffsetSpec, List.filter_cons] at *
        by_cases hx : x < l_filter
        · rw [if_pos (by simpa using hx), if_pos hx, List.map_cons, List.sum_cons, ih]
        · rw [if_neg (by simpa using hx), if_neg hx, ih]
          omega
  · intro idx hidx hs hval
    have hfilter : sof.filter (fun l => l < l_filter) = sof.take idx := by
      rw [← hval]
      exact sorted_filter_lt_eq_take sof idx hidx hs
    constructor
    · unfold forwardYOffset
      rw [hfilter]
    · unfold forwardYOffset
      rw [hfilter, List.map_take, List.map_take,
        take_sum_succ _ idx (by simpa using hidx), getD_map_nat _ _ hidx, hval]

/-- Witness for C5's sorted-set part at `sof = [0, 2]`, `l_filter = 2`,
`idx = 1`. -/
theorem C5_harmonics_slice_offset_witness :
    forwardYOffset [0, 2] 2 = (([0, 2].take 1).map (fun l => 2 * l + 1)).sum
    ∧ forwardYOffset [0, 2] 2 + (2 * 2 + 1)
        = (([0, 2].take 2).map (fun l => 2 * l + 1)).sum :=
  (C5_harmonics_slice_offset [0, 2] 2).2.2 1 (by decide)
    (by simp) (by decide)

theorem map_sum_eq_range (f : Blk → ℕ) (Rs : List Blk) :
    (Rs.map f).sum = ∑ i ∈ range Rs.length, f (Rs.getD i (0, 0, 0)) := by
  induction Rs with
  | nil => simp
  | cons x t ih =>
      rw [List.map_cons, List.sum_cons, List.length_cons,
        Finset.sum_range_succ']
      simp only [List.getD_cons_succ, List.getD_cons_zero]
      rw [ih]
      omega

theorem totalPathDim_eq_sum (glf : ℕ → ℤ → ℕ → ℤ → List ℕ)
    (Rs_in Rs_out : List Blk) :
    totalPathDim glf Rs_in Rs_out
      = ∑ i ∈ range Rs_out.length, ∑ j ∈ range Rs_in.length,
          pairPathLen glf (Rs_out.getD i (0, 0, 0)) (Rs_in.getD j (0, 0, 0)) := by
  unfold totalPathDim
  rw [map_sum_eq_range]
  exact Finset.sum_congr rfl fun i _ => map_sum_eq_range _ _

/-- C6: a pair with a nonempty filter list consumes exactly
`mul_out * mul_in * |filters|` path entries; the running offset advances
by exactly that amount (ranges of consecutive pairs are adjacent); the
final offset — the total path length — is the sum of the per-pair
consumptions over the whole double loop in traversal order; the indices
the pair reads are exactly the contiguous range
`[begin_R, begin_R + n)` (every `(u, v, k)` lands inside it, and every
position in it is hit); and the range of a pair is disjoint from — in
fact entirely before — the range of any later pair in traversal order. -/
theorem C6_path_consumption (glf : ℕ → ℤ → ℕ → ℤ → List ℕ)
    (Rs_in Rs_out : List Blk) (i j : ℕ)
    (hi : i < Rs_out.length) (hj : j < Rs_in.length)
    (hne : glf (Rs_in.getD j (0, 0, 0)).2.1 (Rs_in.getD j (0, 0, 0)).2.2
        (Rs_out.getD i (0, 0, 0)).2.1 (Rs_out.getD i (0, 0, 0)).2.2 ≠ []) :
    pairPathLen glf (Rs_out.getD i (0, 0, 0)) (Rs_in.getD j (0, 0, 0))
        = (Rs_out.getD i (0, 0, 0)).1 * (Rs_in.getD j (0, 0, 0)).1
          * (glf (Rs_in.getD j (0, 0, 0)).2.1 (Rs_in.getD j (0, 0, 0)).2.2
              (Rs_out.getD i (0, 0, 0)).2.1 (Rs_out.getD i (0, 0, 0)).2.2).length
    ∧ beginR glf Rs_in Rs_out i (j + 1)
        = beginR glf Rs_in Rs_out i j
          + pairPathLen glf (Rs_out.getD i (0, 0, 0)) (Rs_in.getD j (0, 0, 0))
    ∧ beginR glf Rs_in Rs_out Rs_out.length 0 = totalPathDim glf Rs_in Rs_out
    ∧ totalPathDim glf Rs_in Rs_out
        = ∑ i' ∈ range Rs_out.length, ∑ j' ∈ range Rs_in.length,
            pairPathLen glf (Rs_out.getD i' (0, 0, 0)) (Rs_in.getD j' (0, 0, 0))
    ∧ (∀ u v k, u < (Rs_out.getD i (0, 0, 0)).1 → v < (Rs_in.getD j (0, 0, 0)).1 →
        k < (glf (Rs_in.getD j (0, 0, 0)).2.1 (Rs_in.getD j (0, 0, 0)).2.2
            (Rs_out.getD i (0, 0, 0)).2.1 (Rs_out.getD i (0, 0, 0)).2.2).length →
        (u * (Rs_in.getD j (0, 0, 0)).1 + v)
            * (glf (Rs_in.getD j (0, 0, 0)).2.1 (Rs_in.getD j (0, 0, 0)).2.2
                (Rs_out.getD i (0, 0, 0)).2.1 (Rs_out.getD i (0, 0, 0)).2.2).length
            + k
          < pairPathLen glf (Rs_out.getD i (0, 0, 0)) (Rs_in.getD j (0, 0, 0)))
    ∧ (∀ t, t < pairPathLen glf (Rs_out.getD i (0, 0, 0)) (Rs_in.getD j (0, 0, 0)) →
        ∃ u v k, u < (Rs_out.getD i (0, 0, 0)).1 ∧ v < (Rs_in.getD j (0, 0, 0)).1
          ∧ k < (glf (Rs_in.getD j (0, 0, 0)).2.1 (Rs_in.getD j (0, 0, 0)).2.2
              (Rs_out.getD i (0, 0, 0)).2.1 (Rs_out.getD i (0, 0, 0)).2.2).length
          ∧ (u * (Rs_in.getD j (0, 0, 0)).1 + v)
              * (glf (Rs_in.getD j (0, 0, 0)).2.1 (Rs_in.getD j (0, 0, 0)).2.2
                  (Rs_out.getD i (0, 0, 0)).2.1 (Rs_out.getD i (0, 0, 0)).2.2).length
              + k = t)
    ∧ (∀ i' j', i' < Rs_out.length → j' < Rs_in.length →
        (i < i' ∨ (i = i' ∧ j < j')) →
        beginR glf Rs_in Rs_out i j
            + pairPathLen glf (Rs_out.getD i (0, 0, 0)) (Rs_in.getD j (0, 0, 0))
          ≤ beginR glf Rs_in Rs_out i' j') := by
  have hprod : pairPathLen glf (Rs_out.getD i (0, 0, 0)) (Rs_in.getD j (0, 0, 0))
      = (Rs_out.getD i (0, 0, 0)).1 * (Rs_in.getD j (0, 0, 0)).1
        * (glf (Rs_in.getD j (0, 0, 0)).2.1 (Rs_in.getD j (0, 0, 0)).2.2
            (Rs_out.getD i (0, 0, 0)).2.1 (Rs_out.getD i (0, 0, 0)).2.2).length := by
    simp only [pairPathLen]
    rw [if_neg hne]
  refine ⟨hprod, beginR_succ_j glf Rs_in Rs_out i hj,
    beginR_total_eq glf Rs_in Rs_out, totalPathDim_eq_sum glf Rs_in Rs_out,
    ?_, ?_, ?_⟩
  · intro u v k hu hv hk
    rw [hprod]
    set mo := (Rs_out.getD i (0, 0, 0)).1
    set mi := (Rs_in.getD j (0, 0, 0)).1
    set len := (glf (Rs_in.getD j (0, 0, 0)).2.1 (Rs_in.getD j (0, 0, 0)).2.2
        (Rs_out.getD i (0, 0, 0)).2.1 (Rs_out.getD i (0, 0, 0)).2.2).length
    calc (u * mi + v) * len + k < (u * mi + v) * len + len := by omega
      _ = (u * mi + v + 1) * len := by ring
      _ ≤ (mo * mi) * len := by
          refine Nat.mul_le_mul_right len ?_
          calc u * mi + v + 1 ≤ u * mi + mi := by omega
            _ = (u + 1) * mi := by ring
            _ ≤ mo * mi := Nat.mul_le_mul_right mi (by omega)
      _ = mo * mi * len := by ring
  · intro t ht
    rw [hprod] at ht
    set mo := (Rs_out.getD i (0, 0, 0)).1
    set mi := (Rs_in.getD j (0, 0, 0)).1
    set len := (glf (Rs_in.getD j (0, 0, 0)).2.1 (Rs_in.getD j (0, 0, 0)).2.2
        (Rs_out.getD i (0, 0, 0)).2.1 (Rs_out.getD i (0, 0, 0)).2.2).length
    have hpos : 0 < mi * len := by
      rcases Nat.eq_zero_or_pos (mi * len) with h0 | h0
      · rw [mul_assoc, h0, mul_zero] at ht
        omega
      · exact h0
    have hlen : 0 < len := by
      rcases Nat.eq_zero_or_pos len with h0 | h0
      · rw [h0, mul_zero] at hpos
        omega
      · exact h0
    refine ⟨t / (mi * len), t % (mi * len) / len, t % (mi * len) % len,
      ?_, ?_, ?_, ?_⟩
    · rw [Nat.div_lt_iff_lt_mul hpos]
      calc t < mo * mi * len := ht
        _ = mo * (mi * len) := by ring
    · rw [Nat.div_lt_iff_lt_mul hlen]
      exact Nat.mod_lt _ hpos
    · exact Nat.mod_lt _ hlen
    · have e1 : t % (mi * len) / len * len + t % (mi * len) % len
          = t % (mi * len) := Nat.div_add_mod' _ _
      have e2 : t / (mi * len) * (mi * len) + t % (mi * len) = t :=
        Nat.div_add_mod' _ _
      calc (t / (mi * len) * mi + t % (mi * len) / len) * len
            + t % (mi * len) % len
          = t / (mi * len) * (mi * len)
            + (t % (mi * len) / len * len + t % (mi * len) % len) := by ring
        _ = t / (mi * len) * (mi * len) + t % (mi * len) := by rw [e1]
        _ = t := e2
  · intro i' j' hi' hj' hlex
    have step : beginR glf Rs_in Rs_out i j
        + pairPathLen glf (Rs_out.getD i (0, 0, 0)) (Rs_in.getD j (0, 0, 0))
        = beginR glf Rs_in Rs_out i (j + 1) :=
      (beginR_succ_j glf Rs_in Rs_out i hj).symm
    rcases hlex with hii | ⟨rfl, hjj⟩
    · calc beginR glf Rs_in Rs_out i j + _
          = beginR glf Rs_in Rs_out i (j + 1) := step
        _ ≤ beginR glf Rs_in Rs_out i Rs_in.length :=
            beginR_mono_j glf Rs_in Rs_out i (by omega)
        _ = beginR glf Rs_in Rs_out (i + 1) 0 := beginR_row_end glf Rs_in Rs_out hi
        _ ≤ beginR glf Rs_in Rs_out i' 0 := beginR_mono_i glf Rs_in Rs_out (by omega)
        _ ≤ beginR glf Rs_in Rs_out i' j' :=
            beginR_mono_j glf Rs_in Rs_out i' (by omega)
    · calc beginR glf Rs_in Rs_out i j + _
          = beginR glf Rs_in Rs_out i (j + 1) := step
        _ ≤ beginR glf Rs_in Rs_out i j' :=
            beginR_mono_j glf Rs_in Rs_out i (by omega)

/-- Witness for C6 at a one-block instance with a single filter. -/
theorem C6_path_consumption_witness :
    pairPathLen (fun _ _ _ _ => [0]) ((1, 0, 1) : Blk) ((1, 0, 1) : Blk)
        = 1 * 1 * ([0] : List ℕ).length
    ∧ beginR (fun _ _ _ _ => [0]) [(1, 0, 1)] [(1, 0, 1)] 0 1
        = beginR (fun _ _ _ _ => [0]) [(1, 0, 1)] [(1, 0, 1)] 0 0
          + pairPathLen (fun _ _ _ _ => [0]) ((1, 0, 1) : Blk) ((1, 0, 1) : Blk)
    ∧ beginR (fun _ _ _ _ => [0]) [(1, 0, 1)] [(1, 0, 1)] 1 0
        = totalPathDim (fun _ _ _ _ => [0]) [(1, 0, 1)] [(1, 0, 1)]
    ∧ totalPathDim (fun _ _ _ _ => [0]) [(1, 0, 1)] [(1, 0, 1)]
        = ∑ i' ∈ range 1, ∑ j' ∈ range 1,
            pairPathLen (fun _ _ _ _ => [0]) ([(1, 0, 1)].getD i' (0, 0, 0))
              ([(1, 0, 1)].getD j' (0, 0, 0))
    ∧ (∀ u v k, u < 1 → v < 1 → k < 1 →
        (u * 1 + v) * 1 + k
          < pairPathLen (fun _ _ _ _ => [0]) ((1, 0, 1) : Blk) ((1, 0, 1) : Blk))
    ∧ (∀ t, t < pairPathLen (fun _ _ _ _ => [0]) ((1, 0, 1) : Blk)
          ((1, 0, 1) : Blk) →
        ∃ u v k, u < 1 ∧ v < 1 ∧ k < 1 ∧ (u * 1 + v) * 1 + k = t)
    ∧ (∀ i' j', i' < 1 → j' < 1 → (0 < i' ∨ (0 = i' ∧ 0 < j')) →
        beginR (fun _ _ _ _ => [0]) [(1, 0, 1)] [(1, 0, 1)] 0 0
            + pairPathLen (fun _ _ _ _ => [0]) ((1, 0, 1) : Blk)
              ((1, 0, 1) : Blk)
          ≤ beginR (fun _ _ _ _ => [0]) [(1, 0, 1)] [(1, 0, 1)] i' j') :=
  C6_path_consumption (fun _ _ _ _ => [0]) [(1, 0, 1)] [(1, 0, 1)] 0 0
    (by decide) (by decide) (by decide)

/-- Witness for C4: with a filter rule that returns no filters, the single
pair of a one-block problem contributes nothing and moves the path offset
by zero. -/
theorem C4_empty_filter_skip_witness :
    (∀ z a u im,
        pairContribK 1 (fun _ _ _ _ _ _ => 1) (fun _ _ _ => 1)
          (fun _ _ _ _ => 1) (fun _ _ _ _ => 1) (fun _ _ _ _ _ => 1)
          [(1, 0, 1)] [(1, 0, 1)] (fun _ _ _ _ => []) [] 0 0 z a u im = 0)
    ∧ pairPathLen (fun _ _ _ _ => []) ([(1, 0, 1)].getD 0 (0, 0, 0))
        ([(1, 0, 1)].getD 0 (0, 0, 0)) = 0
    ∧ beginR (fun _ _ _ _ => []) [(1, 0, 1)] [(1, 0, 1)] 0 1
        = beginR (fun _ _ _ _ => []) [(1, 0, 1)] [(1, 0, 1)] 0 0 :=
  C4_empty_filter_skip 1 (fun _ _ _ _ _ _ => 1) (fun _ _ _ => 1)
    (fun _ _ _ _ => 1) (fun _ _ _ _ => 1) (fun _ _ _ _ _ => 1)
    [(1, 0, 1)] [(1, 0, 1)] (fun _ _ _ _ => []) [] 0 0 (by decide) rfl
